import Mathlib

/-!
# Page-table dump (arch/arm64/mm/dump.c): range accumulator and size formatter

A shallow embedding of `note_page`, `dump_prot`, the static tables
(`address_markers`, `pte_bits`, `section_bits`, `pg_level`), the mask
computation of `ptdump_init`, the walkers `walk_pte`, `walk_pmd`, `walk_pud`
and `walk_pgd`, and the text of the report lines.

Conventions of the embedding
* `unsigned long` / `u64` values are natural numbers; the one place where the
  source relies on wrap-around (`addr - st->start_address`) reduces modulo `2^64`.
* An array read through an index or pointer that leaves the array is undefined
  in C; the embedding returns `none` there.
* `seq_printf` appends to `st->seq`; the embedding records the output as a list
  of lines (`Line`), one record per finished header or range line.
-/

namespace Dump

/-- Constants that `dump.c` takes from kernel headers (`asm/pgtable.h` and
friends). The headers are not part of the sources, so the values are parameters
of the embedding. -/
structure Consts where
  VMALLOC_START : Nat
  VMALLOC_END : Nat
  VMEMMAP_START : Nat
  VMEMMAP_END : Nat
  MODULES_VADDR : Nat
  PAGE_OFFSET : Nat
  USER_PGTABLES_CEILING : Nat
  PTE_USER : Nat
  PTE_RDONLY : Nat
  PTE_SHARED : Nat
  PTE_AF : Nat
  PTE_NG : Nat
  PTE_CONT : Nat
  PTE_PXN : Nat
  PTE_UXN : Nat
  PMD_SECT_S : Nat
  PMD_SECT_AF : Nat
  PMD_SECT_NG : Nat
  PMD_SECT_PXN : Nat
  PMD_SECT_UXN : Nat

/-- The C type `struct addr_marker`; a NULL `name` is `none`. -/
structure addr_marker where
  start_address : Nat
  name : Option String
deriving DecidableEq, Repr

/-- The table `address_markers[]` (lines 28-40); `-1` as `unsigned long` is `2^64 - 1`. -/
def address_markers (K : Consts) : List addr_marker :=
  [ ⟨K.VMALLOC_START, some "vmalloc() Area"⟩,
    ⟨K.VMALLOC_END, some "vmalloc() End"⟩,
    ⟨K.VMEMMAP_START, some "vmemmap Area(8GB)"⟩,
    ⟨K.VMEMMAP_END, some "vmemmap End"⟩,
    ⟨0xffffffbffbc00000, some "earlyprintk device(2MB)"⟩,
    ⟨0xffffffbffbdfffff, some "earlyprintk device End"⟩,
    ⟨0xffffffbffbe00000, some "PCI I/O space start"⟩,
    ⟨0xffffffbffbe0ffff, some "PCI I/O space end"⟩,
    ⟨K.MODULES_VADDR, some "Modules"⟩,
    ⟨K.PAGE_OFFSET, some "Kernel Mapping(256GB)"⟩,
    ⟨2 ^ 64 - 1, none⟩ ]

/-- The C type `struct prot_bits`; an omitted `.set` / `.clear` initialiser is a
NULL pointer, here `none`. -/
structure prot_bits where
  mask : Nat
  val : Nat
  set : Option String
  clear : Option String
deriving DecidableEq, Repr

/-- The table `pte_bits[]` (lines 57-99). -/
def pte_bits (K : Consts) : List prot_bits :=
  [ ⟨K.PTE_USER, K.PTE_USER, some "USR", some "   "⟩,
    ⟨K.PTE_RDONLY, K.PTE_RDONLY, some "ro", some "RW"⟩,
    ⟨K.PTE_SHARED, 1 <<< 8, some "OSHD", some "    "⟩,
    ⟨K.PTE_SHARED, 3 <<< 8, some "ISHD", some "    "⟩,
    ⟨K.PTE_AF, K.PTE_AF, some "AF", none⟩,
    ⟨K.PTE_NG, K.PTE_NG, some "nG", none⟩,
    ⟨K.PTE_CONT, K.PTE_CONT, some "CONT", none⟩,
    ⟨K.PTE_PXN, K.PTE_PXN, some "PXN", none⟩,
    ⟨K.PTE_UXN, K.PTE_UXN, some "UXN", none⟩ ]

/-- The table `section_bits[]` (lines 101-128). -/
def section_bits (K : Consts) : List prot_bits :=
  [ ⟨K.PMD_SECT_S, K.PMD_SECT_S, some "SHD", some "   "⟩,
    ⟨K.PMD_SECT_AF, K.PMD_SECT_AF, some "AF", some "   "⟩,
    ⟨K.PMD_SECT_NG, K.PMD_SECT_NG, some "AF", some "   "⟩,
    ⟨K.PMD_SECT_PXN, K.PMD_SECT_PXN, some "PNX", some "x "⟩,
    ⟨K.PMD_SECT_UXN, K.PMD_SECT_UXN, some "UNX", some "x "⟩ ]

/-- The C type `struct pg_level`; a NULL `bits` pointer is `none`. -/
structure pg_level_desc where
  bits : Option (List prot_bits)
  num : Nat
  mask : Nat
deriving DecidableEq, Repr

/-- The static initialiser of `pg_level[]` (lines 136-147): every `mask` is
still zero, `num` is `ARRAY_SIZE` of the rule table. -/
def pg_level_static (K : Consts) : List pg_level_desc :=
  [ ⟨none, 0, 0⟩,
    ⟨none, 0, 0⟩,
    ⟨none, 0, 0⟩,
    ⟨some (section_bits K), (section_bits K).length, 0⟩,
    ⟨some (pte_bits K), (pte_bits K).length, 0⟩ ]

/-- The inner loop of `ptdump_init` (lines 303-304):
`for (j = 0; j < num; j++) mask |= bits[j].mask`. -/
def or_masks : List prot_bits → Nat → Nat → Nat
  | _, 0, mask => mask
  | [], _ + 1, mask => mask
  | b :: bits, n + 1, mask => or_masks bits n (mask ||| b.mask)

/-- The body of the outer loop of `ptdump_init` (lines 302-304) for one level. -/
def init_level (l : pg_level_desc) : pg_level_desc :=
  match l.bits with
  | some bits => { l with mask := or_masks bits l.num l.mask }
  | none => l

/-- The mask computation of `ptdump_init` (lines 301-304) over a whole table. -/
def ptdump_init (tbl : List pg_level_desc) : List pg_level_desc :=
  tbl.map init_level

/-- The table `pg_level[]` as `note_page` sees it, after `ptdump_init` has run. -/
def pg_level (K : Consts) : List pg_level_desc :=
  ptdump_init (pg_level_static K)

/-- One finished line of the report.
`header name` is `"---[ %s ]---\n"`; `range start end_ delta unit flags` is
`"0x%016lx-0x%016lx   "`, then `"%9lu%c"`, then `" %s"` for every flag, then
`"\n"`. -/
inductive Line where
  | header (name : Option String)
  | range (start end_ delta : Nat) (unit : Char) (flags : List String)
deriving DecidableEq, Repr

/-- The C type `struct pg_state`; `seq` is the text written so far and `marker`
is the index into `address_markers` that the pointer `st->marker` designates. -/
structure pg_state where
  seq : List Line
  marker : Nat
  start_address : Nat
  level : Nat
  current_prot : Nat
deriving DecidableEq, Repr

/-- The function `dump_prot` (lines 149-165): the labels printed, in order, for
the first `num` rules of `bits` against `st->current_prot`. -/
def dump_prot (st : pg_state) : List prot_bits → Nat → List String
  | _, 0 => []
  | [], _ + 1 => []
  | b :: bits, n + 1 =>
    let s := if st.current_prot &&& b.mask = b.val then b.set else b.clear
    (match s with
      | some str => [str]
      | none => []) ++ dump_prot st bits n

/-- The string `units[] = "KMGTPE"` of `note_page` (line 170). -/
def units : List Char := ['K', 'M', 'G', 'T', 'P', 'E']

/-- The unit loop of `note_page` (lines 190-193); the list is the string from
`unit` onwards, so `unit[1]` is non-zero exactly when a second character
exists. -/
def unit_loop : Nat → List Char → Nat × Char
  | delta, u :: u1 :: rest =>
    if delta &&& 1023 = 0 then unit_loop (delta >>> 10) (u1 :: rest) else (delta, u)
  | delta, [u] => (delta, u)
  | delta, [] => (delta, Char.ofNat 0)

/-- The size computation of `note_page` on a byte count (lines 189-194):
`delta = bytes >> 10` followed by the unit loop. -/
def format (bytes : Nat) : Nat × Char :=
  unit_loop (bytes >>> 10) units

/-- The function `note_page` (lines 167-209). -/
def note_page (K : Consts) (st : pg_state) (addr level val : Nat) : Option pg_state :=
  match (pg_level K)[level]? with
  | none => none
  | some pl =>
    let prot := val &&& pl.mask
    if addr < K.USER_PGTABLES_CEILING then some st
    else if st.level = 0 then
      match (address_markers K)[st.marker]? with
      | none => none
      | some cur =>
        some { st with level := level, current_prot := prot,
                       seq := st.seq ++ [Line.header cur.name] }
    else
      match (address_markers K)[st.marker + 1]? with
      | none => none
      | some next =>
        if prot ≠ st.current_prot ∨ level ≠ st.level ∨ next.start_address ≤ addr then
          let flushed : Option (List Line) :=
            if st.current_prot ≠ 0 then
              match (pg_level K)[st.level]? with
              | none => none
              | some old =>
                let size := format ((addr + 2 ^ 64 - st.start_address) % 2 ^ 64)
                let flags :=
                  match old.bits with
                  | some bits => dump_prot st bits old.num
                  | none => []
                some (st.seq ++ [Line.range st.start_address addr size.1 size.2 flags])
            else some st.seq
          match flushed with
          | none => none
          | some out =>
            if next.start_address ≤ addr then
              some { seq := out ++ [Line.header next.name], marker := st.marker + 1,
                     start_address := addr, level := level, current_prot := prot }
            else
              some { seq := out, marker := st.marker,
                     start_address := addr, level := level, current_prot := prot }
        else some st

/-- One observation `(addr, level, val)` as the walker hands it to `note_page`. -/
structure Obs where
  addr : Nat
  level : Nat
  val : Nat
deriving DecidableEq, Repr

/-- Consecutive calls of `note_page` on one `pg_state`, in list order. -/
def feed (K : Consts) : pg_state → List Obs → Option pg_state
  | st, [] => some st
  | st, o :: os =>
    match note_page K st o.addr o.level o.val with
    | none => none
    | some st1 => feed K st1 os

/-- The state `walk_pgd` builds before its loop (lines 261-264): `memset` to
zero, `marker = address_markers`, `start_address = VMALLOC_START`. -/
def walk_pgd_init (K : Consts) : pg_state :=
  { seq := [], marker := 0, start_address := K.VMALLOC_START, level := 0, current_prot := 0 }

/-- A sample set of constants: the 39-bit arm64 memory map with 4K pages, the
architectural descriptor bits, and a ceiling of 0 (no low address is filtered).
Used to evaluate the definitions on concrete inputs. -/
def sample : Consts :=
  { VMALLOC_START := 0xffffff8000000000
    VMALLOC_END := 0xffffffbbffff0000
    VMEMMAP_START := 0xffffffbc00000000
    VMEMMAP_END := 0xffffffbe00000000
    MODULES_VADDR := 0xffffffbffc000000
    PAGE_OFFSET := 0xffffffc000000000
    USER_PGTABLES_CEILING := 0
    PTE_USER := 1 <<< 6
    PTE_RDONLY := 1 <<< 7
    PTE_SHARED := 3 <<< 8
    PTE_AF := 1 <<< 10
    PTE_NG := 1 <<< 11
    PTE_CONT := 1 <<< 52
    PTE_PXN := 1 <<< 53
    PTE_UXN := 1 <<< 54
    PMD_SECT_S := 3 <<< 8
    PMD_SECT_AF := 1 <<< 10
    PMD_SECT_NG := 1 <<< 11
    PMD_SECT_PXN := 1 <<< 53
    PMD_SECT_UXN := 1 <<< 54 }

/-- The state of `walk_pgd` under `sample` after one leaf observation at
`VMALLOC_START` with `PTE_USER | PTE_RDONLY` set: a range is open there. -/
def sample_open : pg_state :=
  { seq := [Line.header (some "vmalloc() Area")], marker := 0,
    start_address := 0xffffff8000000000, level := 4, current_prot := 0xc0 }

/-- The start addresses of `address_markers`, in table order. -/
def marker_starts (K : Consts) : List Nat :=
  (address_markers K).map addr_marker.start_address

/-- The `(start, end)` pairs of the range lines of a report, in output order. -/
def range_bounds : List Line → List (Nat × Nat)
  | [] => []
  | Line.range s e _ _ _ :: rest => (s, e) :: range_bounds rest
  | Line.header _ :: rest => range_bounds rest

/-- A variant of `sample` whose ceiling is the top of the 39-bit user half. -/
def sample_user_ceiling : Consts :=
  { sample with USER_PGTABLES_CEILING := 0x8000000000 }

/-- The value `pg_level[level].mask` (zero for an index outside the table, which
`note_page` never gets to use). -/
def level_mask (K : Consts) (level : Nat) : Nat :=
  match (pg_level K)[level]? with
  | some pl => pl.mask
  | none => 0

/-- The flag column of a range line: `dump_prot` over the rule table of
`pg_level[st->level]` when that table is non-NULL (lines 195-197). -/
def level_flags (K : Consts) (st : pg_state) : List String :=
  match (pg_level K)[st.level]? with
  | some old =>
    (match old.bits with
      | some bits => dump_prot st bits old.num
      | none => [])
  | none => []

/-- The range line that a flush at `addr` prints for the open range of `st`
(lines 186-198). -/
def range_line (K : Consts) (st : pg_state) (addr : Nat) : Line :=
  Line.range st.start_address addr
    (format ((addr + 2 ^ 64 - st.start_address) % 2 ^ 64)).1
    (format ((addr + 2 ^ 64 - st.start_address) % 2 ^ 64)).2
    (level_flags K st)

/-- Follows the specification (section 3): the `level_mask` of a rule list, the
bitwise OR of the masks of all its rules. -/
def rules_mask_spec : List prot_bits → Nat
  | [] => 0
  | r :: rules => r.mask ||| rules_mask_spec rules

/-- Follows the specification (section 4.3): the rule list of a level. Levels
0, 1 and 2 carry no rules; level 3 (block mappings) and level 4 (leaf pages)
have the two rule tables. -/
def level_rules_spec (K : Consts) : Nat → List prot_bits
  | 3 => section_bits K
  | 4 => pte_bits K
  | _ => []

/-- Follows the specification (section 4.3): for each rule in declared order,
the set label if `(value & mask) == rule.value`, else the clear label if
present, else nothing. -/
def decode_rules_spec (value : Nat) : List prot_bits → List String
  | [] => []
  | r :: rules =>
    (if value &&& r.mask = r.val then r.set.toList else r.clear.toList) ++
      decode_rules_spec value rules

/-- Follows the specification (section 4.3): `decode(level, value)` on the raw
entry value. -/
def decode_spec (K : Consts) (level value : Nat) : List String :=
  decode_rules_spec value (level_rules_spec K level)

/-- A leaf-level state under `sample` whose snapshot has `PTE_USER` only. -/
def sample_user : pg_state :=
  { seq := [], marker := 0, start_address := 0xffffff8000000000, level := 4,
    current_prot := 0x40 }

/-- A leaf-level state under `sample` whose snapshot has `PTE_USER` and the
value `2 << 8` in the two-bit `PTE_SHARED` field. -/
def sample_user_sh2 : pg_state :=
  { seq := [], marker := 0, start_address := 0xffffff8000000000, level := 4,
    current_prot := 0x240 }

/-- Every marker region `[m_i, m_(i+1))` with `i ≥ n` that the stream `obs`
reaches beyond contains one of its observations, so that no observation crosses
two marker boundaries at once. Used for a run that starts in the middle of a
walk, with the marker pointer at index `n - 1`. -/
def regions_visited_from (K : Consts) (n : Nat) (obs : List Obs) : Prop :=
  ∀ q ∈ ((marker_starts K).drop n).zip ((marker_starts K).drop n).tail, ∀ y ∈ obs,
    q.2 ≤ y.addr → ∃ x ∈ obs, q.1 ≤ x.addr ∧ x.addr < q.2

/-- The header lines of the markers with index `i + 1, ..., j`, in table order. -/
def marker_headers (K : Consts) (i j : Nat) : List Line :=
  (((address_markers K).drop (i + 1)).take (j - i)).map (fun m => Line.header m.name)

/-- The state of the walk under `sample` after an unmapped top-level entry at
`VMALLOC_START`: a range with snapshot 0 is open. -/
def sample_unmapped : pg_state :=
  { seq := [Line.header (some "vmalloc() Area")], marker := 0,
    start_address := 0xffffff8000000000, level := 1, current_prot := 0 }

/-- One hexadecimal digit as `%x` prints it (lower case). -/
def hex_digit (n : Nat) : Char :=
  if n < 10 then Char.ofNat (48 + n) else Char.ofNat (87 + n)

/-- The hexadecimal digits of `n`, most significant first; `fuel` bounds the
number of digits (16 for a 64-bit value). -/
def hex_digits : Nat → Nat → List Char
  | 0, _ => []
  | fuel + 1, n =>
    if n < 16 then [hex_digit n] else hex_digits fuel (n / 16) ++ [hex_digit (n % 16)]

/-- The conversion `%016lx` of `seq_printf` (line 186) on a 64-bit value:
hexadecimal, padded with zeros to 16 digits. -/
def fmt_016lx (n : Nat) : String :=
  String.mk (List.replicate (16 - (hex_digits 16 (n % 2 ^ 64)).length) '0' ++
    hex_digits 16 (n % 2 ^ 64))

/-- The conversion `%9lu` of `seq_printf` (line 194): decimal, padded with
blanks on the left to width 9. -/
def fmt_9lu (n : Nat) : String :=
  String.mk (List.replicate (9 - (Nat.repr n).length) ' ') ++ Nat.repr n

/-- The text that the `seq_printf` calls of `note_page` and `dump_prot` write
for one line (lines 163, 179, 186, 194, 198, 203). A NULL marker name is printed
as `(null)`. -/
def render : Line → String
  | Line.header name => "---[ " ++ name.getD "(null)" ++ " ]---\n"
  | Line.range s e d u flags =>
    "0x" ++ fmt_016lx s ++ "-0x" ++ fmt_016lx e ++ "   " ++ fmt_9lu d ++ String.singleton u ++
      String.join (flags.map (fun f => " " ++ f)) ++ "\n"

/-- Page-table macros that `dump.c` takes from kernel headers and that are not
part of the sources: the number of entries and the span of one entry at each
level, and the entry tests used by the walkers. They are parameters of the
embedding. -/
structure Pgtable where
  PTRS_PER_PGD : Nat
  PGDIR_SIZE : Nat
  PTRS_PER_PUD : Nat
  PUD_SIZE : Nat
  PTRS_PER_PMD : Nat
  PMD_SIZE : Nat
  PTRS_PER_PTE : Nat
  PAGE_SIZE : Nat
  pgd_table : Nat → Bool
  pud_none : Nat → Bool
  pmd_table : Nat → Bool

/-- A `pmd_t` entry as the walker reads it: `pmd_val(*pmd)` and the values
`pte_val` of the entries of the table that `pte_offset_kernel(pmd, 0)` points
to. -/
structure pmd_t where
  val : Nat
  pte : Nat → Nat

/-- A `pud_t` entry: `pud_val(*pud)` and the entries of the table that
`pmd_offset(pud, 0)` points to. -/
structure pud_t where
  val : Nat
  pmd : Nat → pmd_t

/-- A `pgd_t` entry: `pgd_val(*pgd)` and the entries of the table that
`pud_offset(pgd, 0)` points to. -/
structure pgd_t where
  val : Nat
  pud : Nat → pud_t

/-- The C loop `for (i = 0; i < n; i++) body` over a `pg_state`: `for_loop body i n`
runs `body` for the `n` indices from `i` on. -/
def for_loop (body : Nat → pg_state → Option pg_state) : Nat → Nat → pg_state → Option pg_state
  | _, 0, st => some st
  | i, n + 1, st =>
    match body i st with
    | none => none
    | some st1 => for_loop body (i + 1) n st1

/-- The function `walk_pte` (lines 211-221); the address is computed in
`unsigned long`. -/
def walk_pte (K : Consts) (G : Pgtable) (st : pg_state) (pmd : pmd_t) (start : Nat) :
    Option pg_state :=
  for_loop (fun i s => note_page K s ((start + i * G.PAGE_SIZE) % 2 ^ 64) 4 (pmd.pte i))
    0 G.PTRS_PER_PTE st

/-- The function `walk_pmd` (lines 223-237). -/
def walk_pmd (K : Consts) (G : Pgtable) (st : pg_state) (pud : pud_t) (start : Nat) :
    Option pg_state :=
  for_loop (fun i s =>
      if G.pmd_table (pud.pmd i).val then
        walk_pte K G s (pud.pmd i) ((start + i * G.PMD_SIZE) % 2 ^ 64)
      else note_page K s ((start + i * G.PMD_SIZE) % 2 ^ 64) 3 (pud.pmd i).val)
    0 G.PTRS_PER_PMD st

/-- The function `walk_pud` (lines 239-252). -/
def walk_pud (K : Consts) (G : Pgtable) (st : pg_state) (pgd : pgd_t) (start : Nat) :
    Option pg_state :=
  for_loop (fun i s =>
      if !G.pud_none (pgd.pud i).val then
        walk_pmd K G s (pgd.pud i) ((start + i * G.PUD_SIZE) % 2 ^ 64)
      else note_page K s ((start + i * G.PUD_SIZE) % 2 ^ 64) 2 (pgd.pud i).val)
    0 G.PTRS_PER_PUD st

/-- The function `walk_pgd` (lines 254-276) on the root table
`swapper_pg_dir`. -/
def walk_pgd (K : Consts) (G : Pgtable) (swapper_pg_dir : Nat → pgd_t) : Option pg_state :=
  match for_loop (fun i s =>
      if G.pgd_table (swapper_pg_dir i).val then
        walk_pud K G s (swapper_pg_dir i) ((K.VMALLOC_START + i * G.PGDIR_SIZE) % 2 ^ 64)
      else note_page K s ((K.VMALLOC_START + i * G.PGDIR_SIZE) % 2 ^ 64) 1
        (swapper_pg_dir i).val)
    0 G.PTRS_PER_PGD (walk_pgd_init K) with
  | none => none
  | some st => note_page K st 0 0 0

/-- The calls of `note_page` that `walk_pte` makes, in order. -/
def walk_pte_obs (G : Pgtable) (pmd : pmd_t) (start : Nat) : List Obs :=
  (List.range G.PTRS_PER_PTE).map
    (fun i => ⟨(start + i * G.PAGE_SIZE) % 2 ^ 64, 4, pmd.pte i⟩)

/-- The calls of `note_page` that `walk_pmd` makes, in order. -/
def walk_pmd_obs (G : Pgtable) (pud : pud_t) (start : Nat) : List Obs :=
  (List.range G.PTRS_PER_PMD).flatMap (fun i =>
    if G.pmd_table (pud.pmd i).val then
      walk_pte_obs G (pud.pmd i) ((start + i * G.PMD_SIZE) % 2 ^ 64)
    else [⟨(start + i * G.PMD_SIZE) % 2 ^ 64, 3, (pud.pmd i).val⟩])

/-- The calls of `note_page` that `walk_pud` makes, in order. -/
def walk_pud_obs (G : Pgtable) (pgd : pgd_t) (start : Nat) : List Obs :=
  (List.range G.PTRS_PER_PUD).flatMap (fun i =>
    if !G.pud_none (pgd.pud i).val then
      walk_pmd_obs G (pgd.pud i) ((start + i * G.PUD_SIZE) % 2 ^ 64)
    else [⟨(start + i * G.PUD_SIZE) % 2 ^ 64, 2, (pgd.pud i).val⟩])

/-- The calls of `note_page` that the loop of `walk_pgd` makes, in order (the
final call `note_page(&st, 0, 0, 0)` not included). -/
def walk_pgd_obs (K : Consts) (G : Pgtable) (swapper_pg_dir : Nat → pgd_t) : List Obs :=
  (List.range G.PTRS_PER_PGD).flatMap (fun i =>
    if G.pgd_table (swapper_pg_dir i).val then
      walk_pud_obs G (swapper_pg_dir i) ((K.VMALLOC_START + i * G.PGDIR_SIZE) % 2 ^ 64)
    else [⟨(K.VMALLOC_START + i * G.PGDIR_SIZE) % 2 ^ 64, 1, (swapper_pg_dir i).val⟩])

/-- Modelled from the spec: the geometry of the hierarchy, which the missing
size macros encode. An entry of one level covers at least the span of a full
table of the next level (section 4.1), every entry spans at least one byte, and
the walked area `VMALLOC_START + PTRS_PER_PGD * PGDIR_SIZE` ends inside the
64-bit address space. -/
def geometry_ok (K : Consts) (G : Pgtable) : Prop :=
  0 < G.PAGE_SIZE ∧ 0 < G.PMD_SIZE ∧ 0 < G.PUD_SIZE ∧ 0 < G.PGDIR_SIZE ∧
  G.PTRS_PER_PTE * G.PAGE_SIZE ≤ G.PMD_SIZE ∧
  G.PTRS_PER_PMD * G.PMD_SIZE ≤ G.PUD_SIZE ∧
  G.PTRS_PER_PUD * G.PUD_SIZE ≤ G.PGDIR_SIZE ∧
  K.VMALLOC_START + G.PTRS_PER_PGD * G.PGDIR_SIZE ≤ 2 ^ 64

/-- Follows the specification (section 4.1): `o` is the observation of a
terminal entry of the hierarchy, that is of a level-1, level-2 or level-3 entry
that is not descended into, or of a level-4 entry, at the address given by the
entry's index path `i, j, k, l`. -/
def terminal_obs (K : Consts) (G : Pgtable) (root : Nat → pgd_t) (o : Obs) : Prop :=
  ∃ i, i < G.PTRS_PER_PGD ∧
    ((G.pgd_table (root i).val = false ∧
        o = ⟨K.VMALLOC_START + i * G.PGDIR_SIZE, 1, (root i).val⟩) ∨
     (G.pgd_table (root i).val = true ∧ ∃ j, j < G.PTRS_PER_PUD ∧
        ((G.pud_none ((root i).pud j).val = true ∧
            o = ⟨K.VMALLOC_START + i * G.PGDIR_SIZE + j * G.PUD_SIZE, 2,
              ((root i).pud j).val⟩) ∨
         (G.pud_none ((root i).pud j).val = false ∧ ∃ k, k < G.PTRS_PER_PMD ∧
            ((G.pmd_table (((root i).pud j).pmd k).val = false ∧
                o = ⟨K.VMALLOC_START + i * G.PGDIR_SIZE + j * G.PUD_SIZE + k * G.PMD_SIZE, 3,
                  (((root i).pud j).pmd k).val⟩) ∨
             (G.pmd_table (((root i).pud j).pmd k).val = true ∧ ∃ l, l < G.PTRS_PER_PTE ∧
                o = ⟨K.VMALLOC_START + i * G.PGDIR_SIZE + j * G.PUD_SIZE + k * G.PMD_SIZE +
                      l * G.PAGE_SIZE, 4, (((root i).pud j).pmd k).pte l⟩))))))

/-- A small hierarchy for evaluation: two entries per table, 4K pages; an entry
is a table (or, at the `pud` level, not none) when its value is odd. -/
def sample_pgtable : Pgtable :=
  { PTRS_PER_PGD := 2, PGDIR_SIZE := 0x8000, PTRS_PER_PUD := 2, PUD_SIZE := 0x4000,
    PTRS_PER_PMD := 2, PMD_SIZE := 0x2000, PTRS_PER_PTE := 2, PAGE_SIZE := 0x1000,
    pgd_table := fun v => v % 2 == 1, pud_none := fun v => v % 2 == 0,
    pmd_table := fun v => v % 2 == 1 }

/-- A root table for `sample_pgtable`: entry 0 descends to two leaf pages with
`USR ro` and one block, every other entry is empty. -/
def sample_root : Nat → pgd_t := fun i =>
  { val := if i = 0 then 1 else 0,
    pud := fun j =>
      { val := if j = 0 then 1 else 0,
        pmd := fun k =>
          { val := if k = 0 then 1 else 0x400,
            pte := fun _ => 0xc3 } } }

/-! ## Basic facts about the tables -/

theorem pg_level_length (K : Consts) : (pg_level K).length = 5 := by
  simp [pg_level, ptdump_init, pg_level_static]

theorem address_markers_length (K : Consts) : (address_markers K).length = 11 := by
  simp [address_markers]

theorem pg_level_get (K : Consts) {level : Nat} (h : level < 5) :
    ∃ pl, (pg_level K)[level]? = some pl ∧ pl.mask = level_mask K level := by
  have hl : level < (pg_level K).length := by rw [pg_level_length]; exact h
  refine ⟨(pg_level K)[level], List.getElem?_eq_getElem hl, ?_⟩
  simp [level_mask, List.getElem?_eq_getElem hl]

theorem address_markers_get (K : Consts) {i : Nat} (h : i < 11) :
    ∃ m, (address_markers K)[i]? = some m := by
  have hl : i < (address_markers K).length := by rw [address_markers_length]; exact h
  exact ⟨(address_markers K)[i], List.getElem?_eq_getElem hl⟩

/-! ## The four transitions of `note_page` -/

theorem note_page_skip (K : Consts) (st : pg_state) (addr level val : Nat)
    (hlevel : level < 5) (hlow : addr < K.USER_PGTABLES_CEILING) :
    note_page K st addr level val = some st := by
  obtain ⟨pl, hpl, -⟩ := pg_level_get K hlevel
  simp [note_page, hpl, hlow]

theorem note_page_open (K : Consts) (st : pg_state) (addr level val : Nat) (cur : addr_marker)
    (hlevel : level < 5) (hceil : K.USER_PGTABLES_CEILING ≤ addr) (hclosed : st.level = 0)
    (hcur : (address_markers K)[st.marker]? = some cur) :
    note_page K st addr level val =
      some { st with level := level, current_prot := val &&& level_mask K level,
                     seq := st.seq ++ [Line.header cur.name] } := by
  obtain ⟨pl, hpl, hmask⟩ := pg_level_get K hlevel
  simp [note_page, hpl, Nat.not_lt.mpr hceil, hclosed, hcur, hmask]

theorem note_page_extend (K : Consts) (st : pg_state) (addr level val : Nat) (next : addr_marker)
    (hlevel : level < 5) (hceil : K.USER_PGTABLES_CEILING ≤ addr) (hopen : st.level ≠ 0)
    (hnext : (address_markers K)[st.marker + 1]? = some next)
    (hprot : val &&& level_mask K level = st.current_prot) (hsame : level = st.level)
    (hbelow : addr < next.start_address) :
    note_page K st addr level val = some st := by
  subst hsame
  obtain ⟨pl, hpl, hmask⟩ := pg_level_get K hlevel
  simp [note_page, hpl, Nat.not_lt.mpr hceil, hopen, hnext, hmask, hprot,
    Nat.not_le.mpr hbelow]

theorem note_page_flush (K : Consts) (st : pg_state) (addr level val : Nat) (next : addr_marker)
    (hlevel : level < 5) (hceil : K.USER_PGTABLES_CEILING ≤ addr) (hopen : st.level ≠ 0)
    (hold : st.level < 5)
    (hnext : (address_markers K)[st.marker + 1]? = some next)
    (hdiff : val &&& level_mask K level ≠ st.current_prot ∨ level ≠ st.level ∨
      next.start_address ≤ addr) :
    note_page K st addr level val =
      some { seq := st.seq ++ (if st.current_prot ≠ 0 then [range_line K st addr] else []) ++
                      (if next.start_address ≤ addr then [Line.header next.name] else []),
             marker := if next.start_address ≤ addr then st.marker + 1 else st.marker,
             start_address := addr, level := level,
             current_prot := val &&& level_mask K level } := by
  obtain ⟨pl, hpl, hmask⟩ := pg_level_get K hlevel
  obtain ⟨old, hopl, -⟩ := pg_level_get K hold
  unfold note_page
  simp only [hpl, Nat.not_lt.mpr hceil, hopen, hnext, hmask, if_false, if_true, hdiff]
  by_cases hp : st.current_prot = 0 <;> by_cases hn : next.start_address ≤ addr <;>
    simp [hp, hn, hopl, range_line, level_flags]

theorem note_page_level_prot (K : Consts) (st st1 : pg_state) (addr level val : Nat)
    (h : note_page K st addr level val = some st1) (hceil : K.USER_PGTABLES_CEILING ≤ addr) :
    level < 5 ∧ st1.level = level ∧ st1.current_prot = val &&& level_mask K level := by
  have hlevel : level < 5 := by
    by_contra hge
    have : (pg_level K)[level]? = none := by
      apply List.getElem?_eq_none
      rw [pg_level_length]; omega
    simp [note_page, this] at h
  refine ⟨hlevel, ?_⟩
  by_cases hclosed : st.level = 0
  · by_cases hm : st.marker < 11
    · obtain ⟨cur, hcur⟩ := address_markers_get K hm
      rw [note_page_open K st addr level val cur hlevel hceil hclosed hcur] at h
      cases h
      exact ⟨rfl, rfl⟩
    · have hnone : (address_markers K)[st.marker]? = none := by
        apply List.getElem?_eq_none
        rw [address_markers_length]; omega
      obtain ⟨pl, hpl, -⟩ := pg_level_get K hlevel
      simp [note_page, hpl, Nat.not_lt.mpr hceil, hclosed, hnone] at h
  · obtain ⟨pl, hpl, hmask⟩ := pg_level_get K hlevel
    unfold note_page at h
    simp only [hpl, Nat.not_lt.mpr hceil, hclosed, if_false] at h
    split at h
    · cases h
    · split at h
      · split at h
        · cases h
        · split at h
          · cases h; exact ⟨rfl, by simp [hmask]⟩
          · cases h; exact ⟨rfl, by simp [hmask]⟩
      · rename_i hno
        cases h
        simp only [not_or, not_not, not_le] at hno
        exact ⟨hno.2.1.symm, by rw [← hmask]; exact hno.1.symm⟩

theorem feed_append (K : Consts) (st : pg_state) (xs ys : List Obs) :
    feed K st (xs ++ ys) =
      match feed K st xs with
      | none => none
      | some st1 => feed K st1 ys := by
  induction xs generalizing st with
  | nil => simp [feed]
  | cons o os ih =>
    simp only [List.cons_append, feed]
    cases note_page K st o.addr o.level o.val with
    | none => rfl
    | some st1 => exact ih st1

theorem feed_extend (K : Consts) (st : pg_state) (next : addr_marker) (os : List Obs)
    (hopen : st.level ≠ 0) (hold : st.level < 5)
    (hnext : (address_markers K)[st.marker + 1]? = some next)
    (hall : ∀ o ∈ os, K.USER_PGTABLES_CEILING ≤ o.addr ∧ o.level = st.level ∧
      o.val &&& level_mask K o.level = st.current_prot ∧ o.addr < next.start_address) :
    feed K st os = some st := by
  induction os with
  | nil => rfl
  | cons o os ih =>
    obtain ⟨hc, hl, hp, hb⟩ := hall o (List.mem_cons_self _ _)
    have hstep := note_page_extend K st o.addr o.level o.val next (by omega) hc hopen hnext hp hl hb
    simp only [feed, hstep]
    exact ih (fun o1 ho1 => hall o1 (List.mem_cons_of_mem _ ho1))

theorem feed_snoc (K : Consts) (st : pg_state) (os : List Obs) (o : Obs) :
    feed K st (os ++ [o]) =
      match feed K st os with
      | none => none
      | some st1 => note_page K st1 o.addr o.level o.val := by
  rw [feed_append]
  cases feed K st os with
  | none => rfl
  | some st1 =>
    simp only [feed]
    cases note_page K st1 o.addr o.level o.val <;> rfl

/-- Induction over a run of `note_page` calls, one observation at a time from
the left end of the stream to the right. -/
theorem feed_induct (K : Consts) (st0 : pg_state) (Good : List Obs → Prop)
    (Inv : List Obs → pg_state → Prop)
    (hpre : ∀ os o, Good (os ++ [o]) → Good os)
    (h0 : Inv [] st0)
    (hstep : ∀ os o st, Good (os ++ [o]) → Inv os st →
      ∃ st1, note_page K st o.addr o.level o.val = some st1 ∧ Inv (os ++ [o]) st1)
    (obs : List Obs) (hg : Good obs) :
    ∃ st, feed K st0 obs = some st ∧ Inv obs st := by
  induction obs using List.reverseRecOn with
  | nil => exact ⟨st0, rfl, h0⟩
  | append_singleton os o ih =>
    obtain ⟨st, hst, hinv⟩ := ih (hpre os o hg)
    obtain ⟨st1, h1, hinv1⟩ := hstep os o st hg hinv
    exact ⟨st1, by rw [feed_snoc, hst]; exact h1, hinv1⟩

theorem address_markers_sentinel (K : Consts) :
    (address_markers K)[10]? = some ⟨2 ^ 64 - 1, none⟩ := by
  simp [address_markers]

/-- The four ways a call of `note_page` can go, for a state whose marker pointer
is not on the sentinel and whose levels are inside `pg_level`. -/
theorem note_page_cases (K : Consts) (st : pg_state) (addr level val : Nat)
    (hm : st.marker ≤ 9) (hold : st.level < 5) (hlevel : level < 5) :
    ∃ cur next, (address_markers K)[st.marker]? = some cur ∧
      (address_markers K)[st.marker + 1]? = some next ∧
      ((addr < K.USER_PGTABLES_CEILING ∧ note_page K st addr level val = some st) ∨
       (K.USER_PGTABLES_CEILING ≤ addr ∧ st.level = 0 ∧
          note_page K st addr level val =
            some { st with level := level, current_prot := val &&& level_mask K level,
                           seq := st.seq ++ [Line.header cur.name] }) ∨
       (K.USER_PGTABLES_CEILING ≤ addr ∧ st.level ≠ 0 ∧
          val &&& level_mask K level = st.current_prot ∧ level = st.level ∧
          addr < next.start_address ∧ note_page K st addr level val = some st) ∨
       (K.USER_PGTABLES_CEILING ≤ addr ∧ st.level ≠ 0 ∧
          (val &&& level_mask K level ≠ st.current_prot ∨ level ≠ st.level ∨
            next.start_address ≤ addr) ∧
          note_page K st addr level val =
            some { seq := st.seq ++
                      (if st.current_prot ≠ 0 then [range_line K st addr] else []) ++
                      (if next.start_address ≤ addr then [Line.header next.name] else []),
                   marker := if next.start_address ≤ addr then st.marker + 1 else st.marker,
                   start_address := addr, level := level,
                   current_prot := val &&& level_mask K level })) := by
  obtain ⟨cur, hcur⟩ := address_markers_get K (show st.marker < 11 by omega)
  obtain ⟨next, hnext⟩ := address_markers_get K (show st.marker + 1 < 11 by omega)
  refine ⟨cur, next, hcur, hnext, ?_⟩
  by_cases hlow : addr < K.USER_PGTABLES_CEILING
  · exact Or.inl ⟨hlow, note_page_skip K st addr level val hlevel hlow⟩
  · have hceil : K.USER_PGTABLES_CEILING ≤ addr := Nat.le_of_not_lt hlow
    by_cases hclosed : st.level = 0
    · exact Or.inr (Or.inl ⟨hceil, hclosed,
        note_page_open K st addr level val cur hlevel hceil hclosed hcur⟩)
    · by_cases hdiff : val &&& level_mask K level ≠ st.current_prot ∨ level ≠ st.level ∨
          next.start_address ≤ addr
      · exact Or.inr (Or.inr (Or.inr ⟨hceil, hclosed, hdiff,
          note_page_flush K st addr level val next hlevel hceil hclosed hold hnext hdiff⟩))
      · simp only [not_or, not_not, not_le] at hdiff
        exact Or.inr (Or.inr (Or.inl ⟨hceil, hclosed, hdiff.1, hdiff.2.1, hdiff.2.2,
          note_page_extend K st addr level val next hlevel hceil hclosed hnext hdiff.1
            hdiff.2.1 hdiff.2.2⟩))

theorem range_bounds_append (xs ys : List Line) :
    range_bounds (xs ++ ys) = range_bounds xs ++ range_bounds ys := by
  induction xs with
  | nil => rfl
  | cons x xs ih => cases x <;> simp [range_bounds, ih]

theorem mem_range_bounds (xs : List Line) (s e : Nat) :
    (s, e) ∈ range_bounds xs ↔ ∃ d u f, Line.range s e d u f ∈ xs := by
  induction xs with
  | nil => simp [range_bounds]
  | cons x xs ih =>
    cases x with
    | header n => simp [range_bounds, ih]
    | range s1 e1 d1 u1 f1 =>
      simp only [range_bounds, List.mem_cons, Prod.mk.injEq, ih, Line.range.injEq]
      constructor
      · rintro (⟨rfl, rfl⟩ | ⟨d, u, f, h⟩)
        · exact ⟨d1, u1, f1, Or.inl ⟨rfl, rfl, rfl, rfl, rfl⟩⟩
        · exact ⟨d, u, f, Or.inr h⟩
      · rintro ⟨d, u, f, (⟨rfl, rfl, -, -, -⟩ | h)⟩
        · exact Or.inl ⟨rfl, rfl⟩
        · exact Or.inr ⟨d, u, f, h⟩

theorem range_bounds_flush (K : Consts) (st : pg_state) (addr : Nat) (c d : Prop)
    [Decidable c] [Decidable d] (n : Option String) :
    range_bounds (st.seq ++ (if c then [range_line K st addr] else []) ++
        (if d then [Line.header n] else [])) =
      range_bounds st.seq ++ (if c then [(st.start_address, addr)] else []) := by
  by_cases hc : c <;> by_cases hd : d <;>
    simp [range_bounds_append, range_bounds, range_line, hc, hd]

theorem marker_step_le (K : Consts) (st : pg_state) (next : addr_marker) (addr : Nat)
    (hm : st.marker ≤ 9) (hnext : (address_markers K)[st.marker + 1]? = some next)
    (ha : addr < 2 ^ 64 - 1) :
    (if next.start_address ≤ addr then st.marker + 1 else st.marker) ≤ 9 := by
  split
  · rename_i hle
    by_contra hgt
    have h9 : st.marker = 9 := by omega
    rw [h9, address_markers_sentinel] at hnext
    cases hnext
    simp only at hle
    omega
  · exact hm

theorem increasing_snoc (os : List Obs) (o : Obs)
    (h : (List.map Obs.addr (os ++ [o])).Pairwise (fun x y => x < y)) :
    (List.map Obs.addr os).Pairwise (fun x y => x < y) ∧ ∀ p ∈ os, p.addr < o.addr := by
  rw [List.map_append, List.pairwise_append] at h
  refine ⟨h.1, fun p hp => h.2.2 p.addr (List.mem_map_of_mem _ hp) o.addr (by simp)⟩

theorem sorted_index_lt (l : List Nat) (hs : l.Pairwise (fun x y => x < y)) (i j a b : Nat)
    (ha : l[i]? = some a) (hb : l[j]? = some b) (hij : i < j) : a < b := by
  obtain ⟨hi, rfl⟩ := List.getElem?_eq_some.mp ha
  obtain ⟨hj, rfl⟩ := List.getElem?_eq_some.mp hb
  exact List.pairwise_iff_getElem.mp hs i j hi hj hij

theorem sorted_gap (l : List Nat) (hs : l.Pairwise (fun x y => x < y)) (i a b m : Nat)
    (ha : l[i]? = some a) (hb : l[i + 1]? = some b) (hm : m ∈ l) (hlt : a < m) : b ≤ m := by
  obtain ⟨j, hj⟩ := List.mem_iff_getElem?.mp hm
  rcases Nat.lt_trichotomy j (i + 1) with h | h | h
  · rcases Nat.lt_or_ge j i with h1 | h1
    · have := sorted_index_lt l hs j i m a hj ha h1
      omega
    · have hji : j = i := by omega
      subst hji
      rw [ha] at hj; cases hj; omega
  · subst h
    rw [hb] at hj; cases hj; exact le_refl _
  · exact Nat.le_of_lt (sorted_index_lt l hs (i + 1) j b m hb hj h)

theorem marker_starts_get (K : Consts) (i : Nat) (m : addr_marker)
    (h : (address_markers K)[i]? = some m) :
    (marker_starts K)[i]? = some m.start_address := by
  simp [marker_starts, List.getElem?_map, h]

/-- With ascending markers, a marker start above the current marker is at or
above the next marker. -/
theorem marker_gap (K : Consts) (hs : (marker_starts K).Pairwise (fun x y => x < y))
    (i : Nat) (cur next : addr_marker) (hcur : (address_markers K)[i]? = some cur)
    (hnext : (address_markers K)[i + 1]? = some next) (m : Nat) (hm : m ∈ marker_starts K)
    (hlt : cur.start_address < m) : next.start_address ≤ m :=
  sorted_gap (marker_starts K) hs i cur.start_address next.start_address m
    (marker_starts_get K i cur hcur) (marker_starts_get K (i + 1) next hnext) hm hlt

theorem address_markers_zero (K : Consts) :
    (address_markers K)[0]? = some ⟨K.VMALLOC_START, some "vmalloc() Area"⟩ := by
  simp [address_markers]

theorem address_markers_one (K : Consts) :
    (address_markers K)[1]? = some ⟨K.VMALLOC_END, some "vmalloc() End"⟩ := by
  simp [address_markers]

theorem mem_zip_tail (l : List Nat) (i a b : Nat) (ha : l[i]? = some a)
    (hb : l[i + 1]? = some b) : (a, b) ∈ l.zip l.tail := by
  induction l generalizing i with
  | nil => simp at ha
  | cons x xs ih =>
    cases xs with
    | nil => simp at hb
    | cons y ys =>
      cases i with
      | zero =>
        simp only [List.getElem?_cons_zero, Option.some.injEq, zero_add,
          List.getElem?_cons_succ] at ha hb
        subst ha; subst hb
        simp
      | succ k =>
        simp only [List.getElem?_cons_succ] at ha hb
        have := ih k ha (by simpa using hb)
        simp only [List.tail_cons, List.zip_cons_cons, List.mem_cons] at this ⊢
        exact Or.inr this

theorem flush_part_no_header (K : Consts) (st : pg_state) (addr : Nat) (c : Prop)
    [Decidable c] (n : Option String) :
    Line.header n ∉ (if c then [range_line K st addr] else []) := by
  split <;> simp [range_line]

/-- C1 (run collapse). Let `a1` be observed at a level `1..4` with a non-zero
snapshot, opening a range there (`st1.start_address = a1` in the state after the
call), and let `rest` be the further observations of the run: same level, same
snapshot, strictly increasing addresses above `a1`, all below the next marker.
If the run is followed by an observation at `b`, above the run and below the
next marker, that differs in snapshot or level, then the calls for `rest` and
`b` together print exactly one line, the range line from `a1` to `b`. -/
theorem run_collapse (K : Consts) (st0 st1 : pg_state) (a1 level v1 : Nat) (rest : List Obs)
    (b lb vb : Nat) (next : addr_marker)
    (hlevel : 1 ≤ level ∧ level ≤ 4)
    (hfirst : note_page K st0 a1 level v1 = some st1)
    (hceil : K.USER_PGTABLES_CEILING ≤ a1)
    (hopened : st1.start_address = a1)
    (hprot : v1 &&& level_mask K level ≠ 0)
    (hnext : (address_markers K)[st1.marker + 1]? = some next)
    (hrest : ∀ o ∈ rest, o.level = level ∧
      o.val &&& level_mask K level = v1 &&& level_mask K level ∧ o.addr < next.start_address)
    (hinc : List.Pairwise (fun x y => x < y) (a1 :: (rest.map Obs.addr ++ [b])))
    (hb : b < next.start_address) (hlb : lb < 5)
    (hdiff : vb &&& level_mask K lb ≠ v1 &&& level_mask K level ∨ lb ≠ level) :
    ∃ st2, feed K st1 (rest ++ [⟨b, lb, vb⟩]) = some st2 ∧
      st2.seq = st1.seq ++ [Line.range a1 b (format ((b + 2 ^ 64 - a1) % 2 ^ 64)).1
        (format ((b + 2 ^ 64 - a1) % 2 ^ 64)).2 (level_flags K st1)] := by
  obtain ⟨-, hl1, hp1⟩ := note_page_level_prot K st0 st1 a1 level v1 hfirst hceil
  have habove : ∀ x ∈ rest.map Obs.addr ++ [b], a1 < x := (List.pairwise_cons.mp hinc).1
  have hopen : st1.level ≠ 0 := by omega
  have hold : st1.level < 5 := by omega
  have hext : feed K st1 rest = some st1 := by
    apply feed_extend K st1 next rest hopen hold hnext
    intro o ho
    obtain ⟨h1, h2, h3⟩ := hrest o ho
    have : a1 < o.addr := habove o.addr (by simp; exact Or.inl ⟨o, ho, rfl⟩)
    refine ⟨by omega, by omega, ?_, h3⟩
    rw [h1, hp1]; exact h2
  have hba : a1 < b := habove b (by simp)
  have hfl := note_page_flush K st1 b lb vb next hlb (by omega) hopen hold hnext
    (by
      rcases hdiff with h | h
      · exact Or.inl (by rw [hp1]; exact h)
      · exact Or.inr (Or.inl (by omega)))
  have hfeed : feed K st1 (rest ++ [⟨b, lb, vb⟩]) = note_page K st1 b lb vb := by
    rw [feed_append, hext]
    simp only [feed]
    cases note_page K st1 b lb vb <;> rfl
  have hne : st1.current_prot ≠ 0 := by rw [hp1]; exact hprot
  rw [hfeed, hfl]
  exact ⟨_, rfl, by simp [hne, Nat.not_le.mpr hb, range_line, hopened]⟩

/-- C2 (flush transition). In an open state (`st.level` in `1..4`, a marker
after the current one), an observation at a level `0..4` and at or above the
ceiling whose snapshot or level differs from the open range, or whose address
has reached the next marker, prints the range line
of the open range exactly when `st.current_prot` is non-zero: start
`st.start_address`, end `addr`, the size of `(addr - st.start_address) >> 10`
(modulo `2^64`) in adaptive units, flags decoded with the rules of the old level
on the old snapshot. It prints the next marker's header when `addr` has reached
it, and leaves `start_address = addr`, `current_prot = val & mask`,
`level = level`. -/
theorem flush_transition (K : Consts) (st : pg_state) (addr level val : Nat) (next : addr_marker)
    (hlevel : level < 5) (hceil : K.USER_PGTABLES_CEILING ≤ addr) (hopen : st.level ≠ 0)
    (hold : st.level < 5)
    (hnext : (address_markers K)[st.marker + 1]? = some next)
    (hdiff : val &&& level_mask K level ≠ st.current_prot ∨ level ≠ st.level ∨
      next.start_address ≤ addr) :
    ∃ st1, note_page K st addr level val = some st1 ∧
      st1.seq = st.seq ++
        (if st.current_prot ≠ 0 then
          [Line.range st.start_address addr
            (unit_loop (((addr + 2 ^ 64 - st.start_address) % 2 ^ 64) >>> 10) units).1
            (unit_loop (((addr + 2 ^ 64 - st.start_address) % 2 ^ 64) >>> 10) units).2
            (level_flags K st)]
         else []) ++
        (if next.start_address ≤ addr then [Line.header next.name] else []) ∧
      st1.start_address = addr ∧
      st1.current_prot = val &&& level_mask K level ∧
      st1.level = level := by
  refine ⟨_, note_page_flush K st addr level val next hlevel hceil hopen hold hnext hdiff, ?_,
    rfl, rfl, rfl⟩
  rfl

/-- C3 (silent extension). In an open state, an observation at or above the
ceiling with the same snapshot and level (inside `pg_level`) as the open range
and an address below the next marker prints nothing and leaves the whole state
(`seq`, `marker`, `start_address`, `level`, `current_prot`) as it was. -/
theorem silent_extension (K : Consts) (st : pg_state) (addr level val : Nat) (next : addr_marker)
    (hlevel : level < 5) (hceil : K.USER_PGTABLES_CEILING ≤ addr) (hopen : st.level ≠ 0)
    (hnext : (address_markers K)[st.marker + 1]? = some next)
    (hprot : val &&& level_mask K level = st.current_prot) (hsame : level = st.level)
    (hbelow : addr < next.start_address) :
    note_page K st addr level val = some st :=
  note_page_extend K st addr level val next hlevel hceil hopen hnext hprot hsame hbelow

/-- C4, as amended (opening transition). In a closed state (`st.level = 0`), an
observation at or above the ceiling sets `level` and `current_prot` to the
observed level and masked snapshot, prints exactly one header line, that of the
current marker, and no range line; `start_address` and `marker` stay as they
were. -/
theorem opening_transition (K : Consts) (st : pg_state) (addr level val : Nat) (cur : addr_marker)
    (hlevel : level < 5) (hceil : K.USER_PGTABLES_CEILING ≤ addr) (hclosed : st.level = 0)
    (hcur : (address_markers K)[st.marker]? = some cur) :
    ∃ st1, note_page K st addr level val = some st1 ∧
      st1.level = level ∧ st1.current_prot = val &&& level_mask K level ∧
      st1.seq = st.seq ++ [Line.header cur.name] ∧
      st1.start_address = st.start_address ∧ st1.marker = st.marker :=
  ⟨_, note_page_open K st addr level val cur hlevel hceil hclosed hcur, rfl, rfl, rfl, rfl, rfl⟩

/-- C4, counterexample to the claim as stated: from the closed initial state of
`walk_pgd`, an observation one page above `VMALLOC_START` leaves
`start_address` at `VMALLOC_START`, not at the observed address. -/
theorem opening_keeps_start_address :
    (walk_pgd_init sample).level = 0 ∧
    sample.USER_PGTABLES_CEILING ≤ 0xffffff8000001000 ∧
    ∃ st1, note_page sample (walk_pgd_init sample) 0xffffff8000001000 4 0xc0 = some st1 ∧
      st1.start_address = 0xffffff8000000000 ∧ st1.start_address ≠ 0xffffff8000001000 :=
  ⟨rfl, by decide, _, rfl, rfl, by decide⟩

/-- C1, witness: four leaf pages at `VMALLOC_START` with `USR ro`, closed by an
unmapped fifth page, print the one line `[VMALLOC_START, VMALLOC_START + 16K)`. -/
theorem run_collapse_witness :
    ∃ st2, feed sample sample_open
        ([⟨0xffffff8000001000, 4, 0xc0⟩, ⟨0xffffff8000002000, 4, 0xc0⟩,
          ⟨0xffffff8000003000, 4, 0xc0⟩] ++ [⟨0xffffff8000004000, 4, 0⟩]) = some st2 ∧
      st2.seq = sample_open.seq ++ [Line.range 0xffffff8000000000 0xffffff8000004000
        (format ((0xffffff8000004000 + 2 ^ 64 - 0xffffff8000000000) % 2 ^ 64)).1
        (format ((0xffffff8000004000 + 2 ^ 64 - 0xffffff8000000000) % 2 ^ 64)).2
        (level_flags sample sample_open)] :=
  run_collapse sample (walk_pgd_init sample) sample_open 0xffffff8000000000 4 0xc0
    [⟨0xffffff8000001000, 4, 0xc0⟩, ⟨0xffffff8000002000, 4, 0xc0⟩, ⟨0xffffff8000003000, 4, 0xc0⟩]
    0xffffff8000004000 4 0 ⟨0xffffffbbffff0000, some "vmalloc() End"⟩
    (by decide) rfl (by decide) rfl (by decide) rfl (by decide) (by decide) (by decide)
    (by decide) (by decide)

/-- C2, witness: the open `USR ro` range at `VMALLOC_START` is flushed by an
unmapped page two pages further on. -/
theorem flush_transition_witness :
    ∃ st1, note_page sample sample_open 0xffffff8000002000 4 0 = some st1 ∧
      st1.seq = sample_open.seq ++
        (if sample_open.current_prot ≠ 0 then
          [Line.range sample_open.start_address 0xffffff8000002000
            (unit_loop (((0xffffff8000002000 + 2 ^ 64 - sample_open.start_address) % 2 ^ 64)
              >>> 10) units).1
            (unit_loop (((0xffffff8000002000 + 2 ^ 64 - sample_open.start_address) % 2 ^ 64)
              >>> 10) units).2
            (level_flags sample sample_open)]
         else []) ++
        (if (0xffffffbbffff0000 : Nat) ≤ 0xffffff8000002000 then
          [Line.header (some "vmalloc() End")] else []) ∧
      st1.start_address = 0xffffff8000002000 ∧
      st1.current_prot = 0 &&& level_mask sample 4 ∧
      st1.level = 4 :=
  flush_transition sample sample_open 0xffffff8000002000 4 0
    ⟨0xffffffbbffff0000, some "vmalloc() End"⟩
    (by decide) (by decide) (by decide) (by decide) rfl (by decide)

/-- C3, witness: a second `USR ro` page right after the open one extends the
range silently. -/
theorem silent_extension_witness :
    note_page sample sample_open 0xffffff8000001000 4 0xc0 = some sample_open :=
  silent_extension sample sample_open 0xffffff8000001000 4 0xc0
    ⟨0xffffffbbffff0000, some "vmalloc() End"⟩
    (by decide) (by decide) (by decide) rfl (by decide) rfl (by decide)

/-- C4, witness of the amended claim: the first observation of a walk. -/
theorem opening_transition_witness :
    ∃ st1, note_page sample (walk_pgd_init sample) 0xffffff8000000000 4 0xc0 = some st1 ∧
      st1.level = 4 ∧ st1.current_prot = 0xc0 &&& level_mask sample 4 ∧
      st1.seq = (walk_pgd_init sample).seq ++ [Line.header (some "vmalloc() Area")] ∧
      st1.start_address = (walk_pgd_init sample).start_address ∧
      st1.marker = (walk_pgd_init sample).marker :=
  opening_transition sample (walk_pgd_init sample) 0xffffff8000000000 4 0xc0
    ⟨0xffffff8000000000, some "vmalloc() Area"⟩ (by decide) (by decide) rfl rfl

/-! ## Claim C5: marker boundaries and range lines -/

/-- C5, as amended (marker boundaries are not merged across). Assume the marker
table ascending and the ceiling not above `VMALLOC_START`. For every stream of
observations at levels `1..4` with strictly increasing addresses at or above
`VMALLOC_START` and below `2^64 - 1`, the first of them below `VMALLOC_END`, fed
from the initial state of `walk_pgd`: the run goes through, and no range line
has a marker start `m` and an observation address `x` with
`line.start < m ≤ x < line.end`. -/
theorem marker_boundary_splits (K : Consts) (obs : List Obs)
    (hsorted : (marker_starts K).Pairwise (fun x y => x < y))
    (hceil : K.USER_PGTABLES_CEILING ≤ K.VMALLOC_START)
    (hobs : ∀ o ∈ obs, (1 ≤ o.level ∧ o.level ≤ 4) ∧ o.addr < 2 ^ 64 - 1 ∧
      K.VMALLOC_START ≤ o.addr)
    (hinc : (obs.map Obs.addr).Pairwise (fun x y => x < y))
    (hfirst : ∀ o ∈ obs.head?, o.addr < K.VMALLOC_END) :
    ∃ st1, feed K (walk_pgd_init K) obs = some st1 ∧
      ∀ r ∈ range_bounds st1.seq, ∀ m ∈ marker_starts K, ∀ o ∈ obs,
        ¬ (r.1 < m ∧ m ≤ o.addr ∧ o.addr < r.2) := by
  obtain ⟨st1, hfeed, -, -, -, -, -, -, -, -, hL⟩ := feed_induct K (walk_pgd_init K)
    (fun os => (∀ o ∈ os, (1 ≤ o.level ∧ o.level ≤ 4) ∧ o.addr < 2 ^ 64 - 1 ∧
        K.VMALLOC_START ≤ o.addr) ∧
      (os.map Obs.addr).Pairwise (fun x y => x < y) ∧
      ∀ o ∈ os.head?, o.addr < K.VMALLOC_END)
    (fun os st => st.marker ≤ 9 ∧ st.level < 5 ∧
      (os = [] → st = walk_pgd_init K) ∧
      (os ≠ [] → st.level ≠ 0) ∧
      (∀ a, (∀ p ∈ os, p.addr < a) → K.VMALLOC_START ≤ a → st.start_address ≤ a) ∧
      (∀ r ∈ range_bounds st.seq, r.2 ≤ st.start_address) ∧
      (∀ cur, (address_markers K)[st.marker]? = some cur →
        cur.start_address ≤ st.start_address) ∧
      (∀ next, (address_markers K)[st.marker + 1]? = some next →
        ∀ p ∈ os, st.start_address < p.addr → p.addr < next.start_address) ∧
      (∀ r ∈ range_bounds st.seq, ∀ m ∈ marker_starts K, ∀ p ∈ os,
        ¬ (r.1 < m ∧ m ≤ p.addr ∧ p.addr < r.2)))
    (by
      rintro os o ⟨h1, h2, h3⟩
      refine ⟨fun p hp => h1 p (List.mem_append_left _ hp), (increasing_snoc os o h2).1, ?_⟩
      cases os with
      | nil => simp
      | cons p ps => simpa using h3)
    ⟨by simp [walk_pgd_init], by simp [walk_pgd_init], fun _ => rfl, fun h => absurd rfl h,
      fun a _ ha => ha, by simp [walk_pgd_init, range_bounds],
      by
        intro cur hcur
        rw [show (walk_pgd_init K).marker = 0 from rfl, address_markers_zero] at hcur
        cases hcur; exact le_refl _,
      by simp, by simp [walk_pgd_init, range_bounds]⟩
    (by
      rintro os o st ⟨hg, hinc1, hhead⟩ ⟨hm, hlv, hnil, hnonnil, hfut, hE, hM, hN, hL⟩
      obtain ⟨⟨hl1, hl4⟩, ha, hv⟩ := hg o (by simp)
      have hprev : ∀ p ∈ os, p.addr < o.addr := (increasing_snoc os o hinc1).2
      have hle := hfut o.addr hprev hv
      have hfut1 : ∀ a, (∀ p ∈ os ++ [o], p.addr < a) → o.addr < a :=
        fun a h => h o (by simp)
      have hne : os ++ [o] ≠ [] := by simp
      obtain ⟨cur, next, hcur, hnext, hcase⟩ :=
        note_page_cases K st o.addr o.level o.val hm hlv (by omega)
      have hMc := hM cur hcur
      have hNn := hN next hnext
      rcases hcase with ⟨hlow, -⟩ | ⟨-, hcl, h⟩ | ⟨-, hop, -, -, hb, h⟩ | ⟨-, hop, -, h⟩
      · omega
      · have hos : os = [] := by
          by_contra hc
          exact hnonnil hc hcl
        subst hos
        have hst := hnil rfl
        subst hst
        refine ⟨_, h, hm, by simp only; omega, fun hc => absurd hc hne,
          fun _ => by simp only; omega, ?_, ?_, ?_, ?_, ?_⟩
        · intro a h1 _
          have := hfut1 a h1
          simp only; omega
        · simp [range_bounds_append, range_bounds, walk_pgd_init]
        · exact hM
        · intro nx hnx p hp hlt
          simp only [List.nil_append, List.mem_singleton] at hp
          subst hp
          rw [show (walk_pgd_init K).marker + 1 = 1 from rfl, address_markers_one] at hnx
          cases hnx
          exact hhead p (by simp)
        · simp [range_bounds_append, range_bounds, walk_pgd_init]
      · refine ⟨_, h, hm, hlv, fun hc => absurd hc hne, fun _ => hop, ?_, hE, hM, ?_, ?_⟩
        · intro a h1 _
          have := hfut1 a h1
          omega
        · intro nx hnx p hp hlt
          rw [hnext] at hnx; cases hnx
          rcases List.mem_append.mp hp with hp1 | hp1
          · exact hNn p hp1 hlt
          · simp only [List.mem_singleton] at hp1
            subst hp1; exact hb
        · intro r hr m hmm p hp
          rcases List.mem_append.mp hp with hp1 | hp1
          · exact hL r hr m hmm p hp1
          · simp only [List.mem_singleton] at hp1
            subst hp1
            have := hE r hr
            omega
      · refine ⟨_, h, marker_step_le K st next o.addr hm hnext ha, by simp only; omega,
          fun hc => absurd hc hne, fun _ => by simp only; omega, ?_, ?_, ?_, ?_, ?_⟩
        · intro a h1 _
          have := hfut1 a h1
          simp only; omega
        · simp only [range_bounds_flush]
          intro r hr
          rcases List.mem_append.mp hr with h1 | h1
          · have := hE r h1
            omega
          · split at h1
            · simp only [List.mem_singleton] at h1
              rw [h1]
            · cases h1
        · intro c hc
          simp only at hc
          split at hc
          · rename_i hadv
            rw [hnext] at hc; cases hc; exact hadv
          · rw [hcur] at hc; cases hc
            simp only; omega
        · intro nx _ p hp hlt
          simp only at hlt
          rcases List.mem_append.mp hp with hp1 | hp1
          · have := hprev p hp1
            omega
          · simp only [List.mem_singleton] at hp1
            subst hp1; omega
        · simp only [range_bounds_flush]
          intro r hr m hmm p hp
          rcases List.mem_append.mp hr with h1 | h1
          · rcases List.mem_append.mp hp with hp1 | hp1
            · exact hL r h1 m hmm p hp1
            · simp only [List.mem_singleton] at hp1
              subst hp1
              have := hE r h1
              omega
          · split at h1
            · simp only [List.mem_singleton] at h1
              subst h1
              rintro ⟨hsm, hmp, hpo⟩
              simp only at hsm hpo
              rcases List.mem_append.mp hp with hp1 | hp1
              · have h5 := hNn p hp1 (by omega)
                have h6 := marker_gap K hsorted st.marker cur next hcur hnext m hmm (by omega)
                omega
              · simp only [List.mem_singleton] at hp1
                subst hp1; omega
            · cases h1)
    obs ⟨hobs, hinc, hfirst⟩
  exact ⟨st1, hfeed, hL⟩

/-- C5, witness of the amended claim: a mapped block ended by the crossing of
`VMALLOC_END`. -/
theorem marker_boundary_splits_witness :
    ∃ st1, feed sample (walk_pgd_init sample)
        [⟨0xffffff8000000000, 1, 0⟩, ⟨0xffffffbbffe00000, 3, 0x400⟩,
          ⟨0xffffffbc00000000, 3, 0x400⟩, ⟨0xffffffbc00200000, 3, 0⟩] = some st1 ∧
      ∀ r ∈ range_bounds st1.seq, ∀ m ∈ marker_starts sample,
        ∀ o ∈ ([⟨0xffffff8000000000, 1, 0⟩, ⟨0xffffffbbffe00000, 3, 0x400⟩,
          ⟨0xffffffbc00000000, 3, 0x400⟩, ⟨0xffffffbc00200000, 3, 0⟩] : List Obs),
        ¬ (r.1 < m ∧ m ≤ o.addr ∧ o.addr < r.2) :=
  marker_boundary_splits sample
    [⟨0xffffff8000000000, 1, 0⟩, ⟨0xffffffbbffe00000, 3, 0x400⟩,
      ⟨0xffffffbc00000000, 3, 0x400⟩, ⟨0xffffffbc00200000, 3, 0⟩]
    (by decide) (by decide) (by decide) (by decide) (by decide)

/-- C5, counterexample to the claim as stated: a 2MB block mapped at the
earlyprintk device is printed as one range line, and the marker
`0xffffffbffbdfffff` (earlyprintk device End) lies strictly inside it. -/
theorem marker_inside_range :
    (List.map Obs.addr [⟨0xffffff8000000000, 1, 0⟩, ⟨0xffffffbffbc00000, 3, 0x400⟩,
      ⟨0xffffffbffbe00000, 3, 0⟩]).Pairwise (fun x y => x < y) ∧
    ∃ st1, feed sample (walk_pgd_init sample)
        [⟨0xffffff8000000000, 1, 0⟩, ⟨0xffffffbffbc00000, 3, 0x400⟩,
          ⟨0xffffffbffbe00000, 3, 0⟩] = some st1 ∧
      range_bounds st1.seq = [(0xffffffbffbc00000, 0xffffffbffbe00000)] ∧
      0xffffffbffbdfffff ∈ marker_starts sample ∧
      (0xffffffbffbc00000 : Nat) < 0xffffffbffbdfffff ∧
      (0xffffffbffbdfffff : Nat) < 0xffffffbffbe00000 :=
  ⟨by decide, _, rfl, rfl, by decide, by decide, by decide⟩

/-! ## Claim C6: the range lines are ordered and do not overlap -/

/-- The invariant behind the order of the range lines: along a stream with
strictly increasing addresses at or above `VMALLOC_START`, every range line
printed so far has `start < end` and ends at or below `st.start_address`, and
the lines are ordered. -/
theorem range_order_invariant (K : Consts) (obs : List Obs)
    (hobs : ∀ o ∈ obs, o.level < 5 ∧ o.addr < 2 ^ 64 - 1 ∧ K.VMALLOC_START ≤ o.addr)
    (hinc : (obs.map Obs.addr).Pairwise (fun x y => x < y)) :
    ∃ st1, feed K (walk_pgd_init K) obs = some st1 ∧ st1.marker ≤ 9 ∧ st1.level < 5 ∧
      (∀ r ∈ range_bounds st1.seq, r.1 < r.2 ∧ r.2 ≤ st1.start_address) ∧
      (range_bounds st1.seq).Pairwise (fun a b => a.2 ≤ b.1) ∧
      (range_bounds st1.seq).Pairwise (fun a b => a.1 < b.1) := by
  obtain ⟨st1, hfeed, hm, hlv, -, hall, hp1, hp2⟩ := feed_induct K (walk_pgd_init K)
    (fun os => (∀ o ∈ os, o.level < 5 ∧ o.addr < 2 ^ 64 - 1 ∧ K.VMALLOC_START ≤ o.addr) ∧
      (os.map Obs.addr).Pairwise (fun x y => x < y))
    (fun os st => st.marker ≤ 9 ∧ st.level < 5 ∧
      (∀ a, (∀ p ∈ os, p.addr < a) → K.VMALLOC_START ≤ a →
        st.start_address ≤ a ∧ (st.level ≠ 0 → st.start_address < a)) ∧
      (∀ r ∈ range_bounds st.seq, r.1 < r.2 ∧ r.2 ≤ st.start_address) ∧
      (range_bounds st.seq).Pairwise (fun a b => a.2 ≤ b.1) ∧
      (range_bounds st.seq).Pairwise (fun a b => a.1 < b.1))
    (fun os o h => ⟨fun p hp => h.1 p (List.mem_append_left _ hp), (increasing_snoc os o h.2).1⟩)
    ⟨by simp [walk_pgd_init], by simp [walk_pgd_init],
      fun a _ ha => ⟨ha, fun h => absurd rfl h⟩,
      by simp [walk_pgd_init, range_bounds], by simp [walk_pgd_init, range_bounds],
      by simp [walk_pgd_init, range_bounds]⟩
    (by
      rintro os o st ⟨hg, hinc1⟩ ⟨hm, hlv, hfut, hall, hp1, hp2⟩
      obtain ⟨hl, ha, hv⟩ := hg o (by simp)
      have hprev : ∀ p ∈ os, p.addr < o.addr := (increasing_snoc os o hinc1).2
      obtain ⟨hle, hlt⟩ := hfut o.addr hprev hv
      have hfut1 : ∀ a, (∀ p ∈ os ++ [o], p.addr < a) → o.addr < a :=
        fun a h => h o (by simp)
      obtain ⟨cur, next, -, hnext, hcase⟩ :=
        note_page_cases K st o.addr o.level o.val hm hlv hl
      rcases hcase with ⟨-, h⟩ | ⟨-, -, h⟩ | ⟨-, -, -, -, -, h⟩ | ⟨-, hop, -, h⟩
      · refine ⟨_, h, hm, hlv, ?_, hall, hp1, hp2⟩
        intro a h1 _
        have := hfut1 a h1
        exact ⟨by omega, fun _ => by omega⟩
      · refine ⟨_, h, hm, hl, ?_, ?_, ?_, ?_⟩
        · intro a h1 _
          have := hfut1 a h1
          exact ⟨by simp only; omega, fun _ => by simp only; omega⟩
        · simpa [range_bounds_append, range_bounds] using hall
        · simpa [range_bounds_append, range_bounds] using hp1
        · simpa [range_bounds_append, range_bounds] using hp2
      · refine ⟨_, h, hm, hlv, ?_, hall, hp1, hp2⟩
        intro a h1 _
        have := hfut1 a h1
        exact ⟨by omega, fun _ => by omega⟩
      · have hs := hlt hop
        refine ⟨_, h, marker_step_le K st next o.addr hm hnext ha, hl, ?_, ?_, ?_, ?_⟩
        · intro a h1 _
          have := hfut1 a h1
          exact ⟨by simp only; omega, fun _ => by simp only; omega⟩
        · simp only [range_bounds_flush]
          intro r hr
          rcases List.mem_append.mp hr with h1 | h1
          · exact ⟨(hall r h1).1, by have := (hall r h1).2; omega⟩
          · split at h1
            · simp only [List.mem_singleton] at h1
              rw [h1]; exact ⟨hs, le_refl _⟩
            · cases h1
        · simp only [range_bounds_flush]
          rw [List.pairwise_append]
          refine ⟨hp1, by split <;> simp, ?_⟩
          intro a ha1 b hb1
          split at hb1
          · simp only [List.mem_singleton] at hb1
            rw [hb1]; exact (hall a ha1).2
          · cases hb1
        · simp only [range_bounds_flush]
          rw [List.pairwise_append]
          refine ⟨hp2, by split <;> simp, ?_⟩
          intro a ha1 b hb1
          split at hb1
          · simp only [List.mem_singleton] at hb1
            rw [hb1]
            have := hall a ha1
            simp only
            omega
          · cases hb1)
    obs ⟨hobs, hinc⟩
  exact ⟨st1, hfeed, hm, hlv, hall, hp1, hp2⟩

/-- C6, as amended (ordered, non-overlapping range lines). For every stream of
observations with strictly increasing addresses at or above `VMALLOC_START`
(levels `0..4`, addresses below `2^64 - 1`), fed from the initial state of
`walk_pgd` and followed by the final observation `(0, 0, 0)` of `walk_pgd`:
both runs go through; every range line printed before the final observation
has `start < end`; the final observation prints at most one more range line,
whose end is 0; and in the complete report, for any two range lines in output
order the end of the earlier one is at most the start of the later one and the
starts are strictly ascending. -/
theorem ranges_ordered (K : Consts) (obs : List Obs)
    (hobs : ∀ o ∈ obs, o.level < 5 ∧ o.addr < 2 ^ 64 - 1 ∧ K.VMALLOC_START ≤ o.addr)
    (hinc : (obs.map Obs.addr).Pairwise (fun x y => x < y)) :
    ∃ st1 st2, feed K (walk_pgd_init K) obs = some st1 ∧
      feed K (walk_pgd_init K) (obs ++ [⟨0, 0, 0⟩]) = some st2 ∧
      (∀ r ∈ range_bounds st1.seq, r.1 < r.2) ∧
      (range_bounds st2.seq = range_bounds st1.seq ∨
        range_bounds st2.seq = range_bounds st1.seq ++ [(st1.start_address, 0)]) ∧
      (∀ r ∈ range_bounds st2.seq, r.1 < r.2 ∨ r.2 = 0) ∧
      (range_bounds st2.seq).Pairwise (fun a b => a.2 ≤ b.1) ∧
      (range_bounds st2.seq).Pairwise (fun a b => a.1 < b.1) := by
  obtain ⟨st1, hfeed, hm, hlv, hall, hp1, hp2⟩ := range_order_invariant K obs hobs hinc
  obtain ⟨cur, next, -, hnext, hcase⟩ := note_page_cases K st1 0 0 0 hm hlv (by omega)
  have hsame : ∀ st2, note_page K st1 0 0 0 = some st2 →
      range_bounds st2.seq = range_bounds st1.seq →
      ∃ st1 st2, feed K (walk_pgd_init K) obs = some st1 ∧
        feed K (walk_pgd_init K) (obs ++ [⟨0, 0, 0⟩]) = some st2 ∧
        (∀ r ∈ range_bounds st1.seq, r.1 < r.2) ∧
        (range_bounds st2.seq = range_bounds st1.seq ∨
          range_bounds st2.seq = range_bounds st1.seq ++ [(st1.start_address, 0)]) ∧
        (∀ r ∈ range_bounds st2.seq, r.1 < r.2 ∨ r.2 = 0) ∧
        (range_bounds st2.seq).Pairwise (fun a b => a.2 ≤ b.1) ∧
        (range_bounds st2.seq).Pairwise (fun a b => a.1 < b.1) := by
    intro st2 h2 hb
    refine ⟨st1, st2, hfeed, by rw [feed_snoc, hfeed]; exact h2,
      fun r hr => (hall r hr).1, Or.inl hb, ?_, ?_, ?_⟩
    · intro r hr
      rw [hb] at hr
      exact Or.inl (hall r hr).1
    · rw [hb]; exact hp1
    · rw [hb]; exact hp2
  rcases hcase with ⟨-, h⟩ | ⟨-, -, h⟩ | ⟨-, -, -, -, -, h⟩ | ⟨-, -, -, h⟩
  · exact hsame _ h rfl
  · exact hsame _ h (by simp [range_bounds_append, range_bounds])
  · exact hsame _ h rfl
  · by_cases hp : st1.current_prot = 0
    · exact hsame _ h (by simp only [range_bounds_flush]; simp [hp])
    · have hb : range_bounds (st1.seq ++
          (if st1.current_prot ≠ 0 then [range_line K st1 0] else []) ++
          (if next.start_address ≤ 0 then [Line.header next.name] else [])) =
          range_bounds st1.seq ++ [(st1.start_address, 0)] := by
        rw [range_bounds_flush]
        simp [hp]
      refine ⟨st1, _, hfeed, by rw [feed_snoc, hfeed]; exact h,
        fun r hr => (hall r hr).1, Or.inr hb, ?_, ?_, ?_⟩
      · intro r hr
        simp only at hr
        rw [hb] at hr
        rcases List.mem_append.mp hr with h1 | h1
        · exact Or.inl (hall r h1).1
        · simp only [List.mem_singleton] at h1
          rw [h1]; exact Or.inr rfl
      · simp only
        rw [hb, List.pairwise_append]
        refine ⟨hp1, by simp, ?_⟩
        intro a ha1 b hb1
        simp only [List.mem_singleton] at hb1
        rw [hb1]; exact (hall a ha1).2
      · simp only
        rw [hb, List.pairwise_append]
        refine ⟨hp2, by simp, ?_⟩
        intro a ha1 b hb1
        simp only [List.mem_singleton] at hb1
        rw [hb1]
        have := hall a ha1
        simp only
        omega

/-- C6, witness of the amended claim: two mapped runs separated by a gap, the
second one still open when the final observation arrives. -/
theorem ranges_ordered_witness :
    ∃ st1 st2, feed sample (walk_pgd_init sample)
        [⟨0xffffff8000000000, 4, 0xc0⟩, ⟨0xffffff8000001000, 4, 0⟩,
          ⟨0xffffff8000002000, 4, 0x40⟩] = some st1 ∧
      feed sample (walk_pgd_init sample)
        ([⟨0xffffff8000000000, 4, 0xc0⟩, ⟨0xffffff8000001000, 4, 0⟩,
          ⟨0xffffff8000002000, 4, 0x40⟩] ++ [⟨0, 0, 0⟩]) = some st2 ∧
      (∀ r ∈ range_bounds st1.seq, r.1 < r.2) ∧
      (range_bounds st2.seq = range_bounds st1.seq ∨
        range_bounds st2.seq = range_bounds st1.seq ++ [(st1.start_address, 0)]) ∧
      (∀ r ∈ range_bounds st2.seq, r.1 < r.2 ∨ r.2 = 0) ∧
      (range_bounds st2.seq).Pairwise (fun a b => a.2 ≤ b.1) ∧
      (range_bounds st2.seq).Pairwise (fun a b => a.1 < b.1) :=
  ranges_ordered sample
    [⟨0xffffff8000000000, 4, 0xc0⟩, ⟨0xffffff8000001000, 4, 0⟩,
      ⟨0xffffff8000002000, 4, 0x40⟩]
    (by decide) (by decide)

/-- C6, counterexample to the claim as stated: the stream that `walk_pgd` feeds
ends with the observation `(0, 0, 0)`; when the last range is mapped its line
runs from the range start to address 0, so `start < end` fails for it. -/
theorem final_line_wraps :
    ∃ st1, feed sample (walk_pgd_init sample)
        [⟨0xffffff8000000000, 4, 0xc0⟩, ⟨0, 0, 0⟩] = some st1 ∧
      range_bounds st1.seq = [(0xffffff8000000000, 0)] ∧
      ¬ ((0xffffff8000000000 : Nat) < 0) :=
  ⟨_, rfl, rfl, by decide⟩

/-! ## Claim C7: region headers -/

/-- C8 (final flush). `USER_PGTABLES_CEILING` comes from a kernel header that
is not part of the sources; its value is taken to be 0 (the generic definition
of the macro), so that address 0 is not below it. After any stream of
observations at levels `1..4`, the final call `note_page(st, 0, 0, 0)` of
`walk_pgd` goes through, prints the range line of the open range exactly when
`st.current_prot` is non-zero (start `st.start_address`, end 0, size from
`(0 - st.start_address) mod 2^64`) and leaves the accumulator closed
(`level = 0`). The only other line it can print is a header: that of the
current marker when the stream was empty, that of the next marker when that
marker starts at address 0. -/
theorem final_flush (K : Consts) (obs : List Obs) (hzero : K.USER_PGTABLES_CEILING = 0)
    (hobs : ∀ o ∈ obs, (1 ≤ o.level ∧ o.level ≤ 4) ∧ o.addr < 2 ^ 64 - 1) :
    ∃ st st1 cur next, feed K (walk_pgd_init K) obs = some st ∧
      (address_markers K)[st.marker]? = some cur ∧
      (address_markers K)[st.marker + 1]? = some next ∧
      note_page K st 0 0 0 = some st1 ∧
      st1.level = 0 ∧
      st1.seq = st.seq ++
        (if st.current_prot ≠ 0 then
          [Line.range st.start_address 0
            (format ((0 + 2 ^ 64 - st.start_address) % 2 ^ 64)).1
            (format ((0 + 2 ^ 64 - st.start_address) % 2 ^ 64)).2
            (level_flags K st)]
         else []) ++
        (if st.level = 0 then [Line.header cur.name]
         else if next.start_address ≤ 0 then [Line.header next.name] else []) := by
  obtain ⟨st, hfeed, hm, hlv, hnil, hopen⟩ := feed_induct K (walk_pgd_init K)
    (fun os => ∀ o ∈ os, (1 ≤ o.level ∧ o.level ≤ 4) ∧ o.addr < 2 ^ 64 - 1)
    (fun os st => st.marker ≤ 9 ∧ st.level < 5 ∧ (os = [] → st = walk_pgd_init K) ∧
      (os ≠ [] → st.level ≠ 0))
    (fun os o h p hp => h p (List.mem_append_left _ hp))
    ⟨by simp [walk_pgd_init], by simp [walk_pgd_init], fun _ => rfl, fun h => absurd rfl h⟩
    (by
      rintro os o st hg ⟨hm, hlv, -, -⟩
      obtain ⟨⟨hl1, hl4⟩, ha⟩ := hg o (by simp)
      obtain ⟨cur, next, -, hnext, hcase⟩ :=
        note_page_cases K st o.addr o.level o.val hm hlv (by omega)
      rcases hcase with ⟨hlow, -⟩ | ⟨-, -, h⟩ | ⟨-, hop, -, -, -, h⟩ | ⟨-, -, -, h⟩
      · omega
      · exact ⟨_, h, hm, by simp; omega, by simp, fun _ => by simp; omega⟩
      · exact ⟨_, h, hm, hlv, by simp, fun _ => hop⟩
      · exact ⟨_, h, marker_step_le K st next o.addr hm hnext ha, by simp; omega, by simp,
          fun _ => by simp; omega⟩)
    obs hobs
  obtain ⟨cur, hcur⟩ := address_markers_get K (show st.marker < 11 by omega)
  obtain ⟨next, hnext⟩ := address_markers_get K (show st.marker + 1 < 11 by omega)
  by_cases hcl : st.level = 0
  · have hst : st = walk_pgd_init K := by
      apply hnil
      by_contra hne
      exact hopen hne hcl
    have hop := note_page_open K st 0 0 0 cur (by omega) (by omega) hcl hcur
    refine ⟨st, _, cur, next, hfeed, hcur, hnext, hop, rfl, ?_⟩
    have hp0 : st.current_prot = 0 := by rw [hst]; rfl
    simp [hp0, hcl]
  · have hfl := note_page_flush K st 0 0 0 next (by omega) (by omega) hcl hlv hnext
      (Or.inr (Or.inl (Ne.symm hcl)))
    refine ⟨st, _, cur, next, hfeed, hcur, hnext, hfl, rfl, ?_⟩
    simp only [hcl, if_false]
    rfl

/-- C8, witness: one mapped leaf page, then the final observation. -/
theorem final_flush_witness :
    ∃ st st1 cur next,
      feed sample (walk_pgd_init sample) [⟨0xffffff8000000000, 4, 0xc0⟩] = some st ∧
      (address_markers sample)[st.marker]? = some cur ∧
      (address_markers sample)[st.marker + 1]? = some next ∧
      note_page sample st 0 0 0 = some st1 ∧
      st1.level = 0 ∧
      st1.seq = st.seq ++
        (if st.current_prot ≠ 0 then
          [Line.range st.start_address 0
            (format ((0 + 2 ^ 64 - st.start_address) % 2 ^ 64)).1
            (format ((0 + 2 ^ 64 - st.start_address) % 2 ^ 64)).2
            (level_flags sample st)]
         else []) ++
        (if st.level = 0 then [Line.header cur.name]
         else if next.start_address ≤ 0 then [Line.header next.name] else []) :=
  final_flush sample [⟨0xffffff8000000000, 4, 0xc0⟩] rfl (by decide)

/-- C9 (low-address ceiling). `USER_PGTABLES_CEILING` comes from a kernel
header that is not part of the sources; it bounds the reserved low region from
above and is taken not to lie above `VMALLOC_START`, the lowest address that
`walk_pgd` inspects (the generic definition of the macro is 0). Every
observation below the ceiling is skipped: nothing is printed and the state is
unchanged. Every stream of observations fed from the initial state of
`walk_pgd` runs through, and no range line it prints starts below the
ceiling. -/
theorem ceiling_filter (K : Consts) (obs : List Obs)
    (hceil : K.USER_PGTABLES_CEILING ≤ K.VMALLOC_START)
    (hobs : ∀ o ∈ obs, o.level < 5 ∧ o.addr < 2 ^ 64 - 1) :
    (∀ st addr level val, level < 5 → addr < K.USER_PGTABLES_CEILING →
      note_page K st addr level val = some st) ∧
    ∃ st1, feed K (walk_pgd_init K) obs = some st1 ∧
      ∀ r ∈ range_bounds st1.seq, K.USER_PGTABLES_CEILING ≤ r.1 := by
  refine ⟨fun st addr level val hlevel hlow => note_page_skip K st addr level val hlevel hlow, ?_⟩
  obtain ⟨st1, hfeed, -, -, -, hall⟩ := feed_induct K (walk_pgd_init K)
    (fun os => ∀ o ∈ os, o.level < 5 ∧ o.addr < 2 ^ 64 - 1)
    (fun _ st => st.marker ≤ 9 ∧ st.level < 5 ∧ K.USER_PGTABLES_CEILING ≤ st.start_address ∧
      ∀ r ∈ range_bounds st.seq, K.USER_PGTABLES_CEILING ≤ r.1)
    (fun os o h p hp => h p (List.mem_append_left _ hp))
    ⟨by simp [walk_pgd_init], by simp [walk_pgd_init], hceil,
      by simp [walk_pgd_init, range_bounds]⟩
    (by
      rintro os o st hg ⟨hm, hlv, hst, hall⟩
      obtain ⟨hl, ha⟩ := hg o (by simp)
      obtain ⟨cur, next, -, hnext, hcase⟩ :=
        note_page_cases K st o.addr o.level o.val hm hlv hl
      rcases hcase with ⟨-, h⟩ | ⟨-, -, h⟩ | ⟨-, -, -, -, -, h⟩ | ⟨hc, -, -, h⟩
      · exact ⟨_, h, hm, hlv, hst, hall⟩
      · refine ⟨_, h, hm, hl, hst, ?_⟩
        simpa [range_bounds_append, range_bounds] using hall
      · exact ⟨_, h, hm, hlv, hst, hall⟩
      · refine ⟨_, h, marker_step_le K st next o.addr hm hnext ha, hl, hc, ?_⟩
        simp only [range_bounds_flush]
        intro r hr
        rcases List.mem_append.mp hr with h1 | h1
        · exact hall r h1
        · split at h1
          · simp only [List.mem_singleton] at h1
            rw [h1]; exact hst
          · cases h1)
    obs hobs
  exact ⟨st1, hfeed, hall⟩

/-- C9, witness: under a ceiling at the top of the user half, a low address is
skipped by an open accumulator, and a short walk that also meets a low address
prints one range line, which starts at `VMALLOC_START`. -/
theorem ceiling_filter_witness :
    note_page sample_user_ceiling sample_open 0x1000 4 0xc0 = some sample_open ∧
    ∃ st1, feed sample_user_ceiling (walk_pgd_init sample_user_ceiling)
        [⟨0x1000, 4, 0xc0⟩, ⟨0xffffff8000000000, 4, 0xc0⟩, ⟨0xffffff8000001000, 4, 0⟩]
          = some st1 ∧
      ∀ r ∈ range_bounds st1.seq, sample_user_ceiling.USER_PGTABLES_CEILING ≤ r.1 :=
  ⟨(ceiling_filter sample_user_ceiling
      [⟨0x1000, 4, 0xc0⟩, ⟨0xffffff8000000000, 4, 0xc0⟩, ⟨0xffffff8000001000, 4, 0⟩]
      (by decide) (by decide)).1 sample_open 0x1000 4 0xc0 (by decide) (by decide),
   (ceiling_filter sample_user_ceiling
      [⟨0x1000, 4, 0xc0⟩, ⟨0xffffff8000000000, 4, 0xc0⟩, ⟨0xffffff8000001000, 4, 0⟩]
      (by decide) (by decide)).2⟩

/-! ## Claim C10: the size formatter on the examples of the specification -/

theorem and_1023 (n : Nat) : n &&& 1023 = n % 1024 := by
  have h := Nat.and_pow_two_sub_one_eq_mod n 10
  simpa using h

theorem shiftRight_10 (n : Nat) : n >>> 10 = n / 1024 := by
  simp [Nat.shiftRight_eq_div_pow]

/-- C10 (size formatter). For every `n < 2^54` that is not a multiple of 1024,
the `>> 10` and unit loop of `note_page` turn the byte delta `n * 1024` (a
64-bit value) into `(n, K)`; `1024 * 1024` bytes give `(1, M)` and `3 * 1024^3`
bytes give `(3, G)`. -/
theorem format_spec_examples (n : Nat) (hn : n < 2 ^ 54) (hmul : n % 1024 ≠ 0) :
    format ((n * 1024) % 2 ^ 64) = (n, 'K') ∧
    format (1024 * 1024) = (1, 'M') ∧
    format (3 * 1024 * 1024 * 1024) = (3, 'G') := by
  refine ⟨?_, by decide, by decide⟩
  have h0 : (n * 1024) % 2 ^ 64 = n * 1024 := Nat.mod_eq_of_lt (by omega)
  have h1 : (n * 1024) >>> 10 = n := by
    rw [shiftRight_10]; exact Nat.mul_div_cancel n (by norm_num)
  rw [h0]
  simp [format, h1, units, unit_loop, and_1023, hmul]

/-- C10, witness: a delta of 5 KiB. -/
theorem format_spec_examples_witness :
    format ((5 * 1024) % 2 ^ 64) = (5, 'K') ∧
    format (1024 * 1024) = (1, 'M') ∧
    format (3 * 1024 * 1024 * 1024) = (3, 'G') :=
  format_spec_examples 5 (by decide) (by decide)


theorem unit_loop_gen (us : List Char) (u0 : Char) (d : Nat) :
    ∃ k, k < (u0 :: us).length ∧ (u0 :: us)[k]? = some (unit_loop d (u0 :: us)).2 ∧
      (unit_loop d (u0 :: us)).1 = d >>> (10 * k) ∧
      (unit_loop d (u0 :: us)).1 * 1024 ^ k = d ∧
      (k + 1 = (u0 :: us).length ∨ (unit_loop d (u0 :: us)).1 % 1024 ≠ 0) := by
  induction us generalizing u0 d with
  | nil => exact ⟨0, by simp, by simp [unit_loop], by simp [unit_loop], by simp [unit_loop],
      Or.inl rfl⟩
  | cons u1 rest ih =>
    by_cases h : d &&& 1023 = 0
    · obtain ⟨k, hk, hu, hs, hv, hmax⟩ := ih u1 (d >>> 10)
      have hstep : unit_loop d (u0 :: u1 :: rest) = unit_loop (d >>> 10) (u1 :: rest) := by
        simp [unit_loop, h]
      have hmod : d % 1024 = 0 := by rw [← and_1023]; exact h
      refine ⟨k + 1, by simp at hk ⊢; omega, ?_, ?_, ?_, ?_⟩
      · rw [hstep]; simpa using hu
      · rw [hstep, hs, ← Nat.shiftRight_add]
        congr 1
        omega
      · rw [hstep, pow_succ, ← Nat.mul_assoc, hv, shiftRight_10]
        exact Nat.div_mul_cancel (Nat.dvd_of_mod_eq_zero hmod)
      · rw [hstep]
        rcases hmax with h1 | h1
        · exact Or.inl (by simp at h1 ⊢; omega)
        · exact Or.inr h1
    · have hstep : unit_loop d (u0 :: u1 :: rest) = (d, u0) := by
        simp [unit_loop, h]
      refine ⟨0, by simp, by simp [hstep], by simp [hstep], by simp [hstep], Or.inr ?_⟩
      rw [hstep, ← and_1023]; exact h

/-! ## Claim C11: the size formatter is exact and picks the largest unit -/

/-- C11 (size formatter exactness and maximality). For every delta `d` in KiB
the unit loop of `note_page` stops after `k ≤ 5` divisions at the `k`-th letter
of `KMGTPE` with the value `v = d >> (10 * k)`; `v * 1024^k = d`, so nothing is
rounded away; either `k = 5` or `v` is not a multiple of 1024; and `k` is the
largest index up to 5 for which `1024^k` divides `d` (for `d = 0` the loop runs
to `E`). -/
theorem unit_loop_exact_maximal (d : Nat) :
    ∃ k, k ≤ 5 ∧ units[k]? = some (unit_loop d units).2 ∧
      (unit_loop d units).1 = d >>> (10 * k) ∧
      (unit_loop d units).1 * 1024 ^ k = d ∧
      (k = 5 ∨ (unit_loop d units).1 % 1024 ≠ 0) ∧
      ∀ j, j ≤ 5 ∧ 1024 ^ j ∣ d → j ≤ k := by
  obtain ⟨k, hk, hu, hs, hv, hmax⟩ := unit_loop_gen ['M', 'G', 'T', 'P', 'E'] 'K' d
  have hk5 : k ≤ 5 := by simp at hk; omega
  refine ⟨k, hk5, hu, hs, hv, ?_, ?_⟩
  · rcases hmax with h | h
    · exact Or.inl (by simp at h; omega)
    · exact Or.inr h
  · rintro j ⟨hj, hdiv⟩
    by_contra hlt
    rcases hmax with h | h
    · simp at h; omega
    · apply h
      have hkj : k + 1 ≤ j := by omega
      have h1 : 1024 ^ (k + 1) ∣ d := dvd_trans (pow_dvd_pow 1024 hkj) hdiv
      have h2 : 1024 ^ k * 1024 ∣ 1024 ^ k * (unit_loop d units).1 := by
        rw [← pow_succ, Nat.mul_comm (1024 ^ k)]
        have : (unit_loop d units).1 * 1024 ^ k = d := hv
        rw [this]; exact h1
      have h3 := Nat.dvd_of_mul_dvd_mul_left (by positivity) h2
      exact Nat.mod_eq_zero_of_dvd h3

/-! ## Claims C12 and C16: level masks and the decoder -/

theorem and_or_absorb (x y : Nat) : x &&& (x ||| y) = x := by
  apply Nat.eq_of_testBit_eq
  intro i
  simp only [Nat.testBit_and, Nat.testBit_or]
  cases x.testBit i <;> simp

theorem and_or_of_and (x y z : Nat) (h : x &&& z = x) : x &&& (y ||| z) = x := by
  apply Nat.eq_of_testBit_eq
  intro i
  have hi : (x &&& z).testBit i = x.testBit i := by rw [h]
  simp only [Nat.testBit_and, Nat.testBit_or] at hi ⊢
  cases hx : x.testBit i <;> cases hz : z.testBit i <;> simp_all

theorem or_masks_eq (bits : List prot_bits) (mask : Nat) :
    or_masks bits bits.length mask = mask ||| rules_mask_spec bits := by
  induction bits generalizing mask with
  | nil => simp [or_masks, rules_mask_spec]
  | cons b bs ih =>
    simp only [List.length_cons, or_masks, rules_mask_spec]
    rw [ih, Nat.lor_assoc]

theorem rule_mask_absorbed (bits : List prot_bits) (r : prot_bits) (h : r ∈ bits) :
    r.mask &&& rules_mask_spec bits = r.mask := by
  induction bits with
  | nil => cases h
  | cons b bs ih =>
    simp only [rules_mask_spec]
    rcases List.mem_cons.mp h with h1 | h1
    · subst h1; exact and_or_absorb _ _
    · exact and_or_of_and _ _ _ (ih h1)

theorem pg_level_three (K : Consts) :
    (pg_level K)[3]? =
      some ⟨some (section_bits K), (section_bits K).length, rules_mask_spec (section_bits K)⟩ := by
  have h := or_masks_eq (section_bits K) 0
  simp only [Nat.zero_or] at h
  simp [pg_level, ptdump_init, pg_level_static, init_level, h]

theorem pg_level_four (K : Consts) :
    (pg_level K)[4]? =
      some ⟨some (pte_bits K), (pte_bits K).length, rules_mask_spec (pte_bits K)⟩ := by
  have h := or_masks_eq (pte_bits K) 0
  simp only [Nat.zero_or] at h
  simp [pg_level, ptdump_init, pg_level_static, init_level, h]

theorem pg_level_low (K : Consts) (i : Nat) (h : i < 3) :
    (pg_level K)[i]? = some ⟨none, 0, 0⟩ := by
  interval_cases i <;> simp [pg_level, ptdump_init, pg_level_static, init_level]

theorem dump_prot_eq_decode (st : pg_state) (value mask : Nat) (bits : List prot_bits)
    (hprot : st.current_prot = value &&& mask)
    (hsub : ∀ r ∈ bits, r.mask &&& mask = r.mask) :
    dump_prot st bits bits.length = decode_rules_spec value bits := by
  induction bits with
  | nil => simp [dump_prot, decode_rules_spec]
  | cons b bs ih =>
    have hb : st.current_prot &&& b.mask = value &&& b.mask := by
      rw [hprot, Nat.and_assoc, Nat.and_comm mask, hsub b (by simp)]
    simp only [List.length_cons, dump_prot, decode_rules_spec, hb]
    rw [ih (fun r hr => hsub r (List.mem_cons_of_mem _ hr))]
    congr 1
    by_cases hc : value &&& b.mask = b.val
    · simp only [hc, if_true]
      cases b.set <;> rfl
    · simp only [hc, if_false]
      cases b.clear <;> rfl

/-- C12 (the decoder agrees with the reference decode on the raw entry). For
every level `0..4` and every raw entry value, the labels that `note_page` has
`dump_prot` print for the stored snapshot `value & pg_level[level].mask` are, in
rule order, the list `decode_spec` gives for the raw value: per rule the set
label when `(value & mask) == val`, else the clear label when there is one.
Both sides are total functions: no value is rejected. -/
theorem dump_prot_refines_decode (K : Consts) (st : pg_state) (level value : Nat)
    (hlevel : level < 5) (hst : st.level = level)
    (hprot : st.current_prot = value &&& level_mask K level) :
    level_flags K st = decode_spec K level value := by
  subst hst
  rcases Nat.lt_or_ge st.level 3 with h3 | h3
  · have hl := pg_level_low K st.level h3
    have : level_rules_spec K st.level = [] := by
      interval_cases st.level <;> rfl
    simp [level_flags, hl, decode_spec, this, decode_rules_spec]
  · rcases Nat.lt_or_ge st.level 4 with h4 | h4
    · have h : st.level = 3 := by omega
      have hm : level_mask K 3 = rules_mask_spec (section_bits K) := by
        simp [level_mask, pg_level_three]
      rw [h, hm] at hprot
      simp only [level_flags, h, pg_level_three, decode_spec, level_rules_spec]
      exact dump_prot_eq_decode st value _ (section_bits K) hprot
        (fun r hr => rule_mask_absorbed _ r hr)
    · have h : st.level = 4 := by omega
      have hm : level_mask K 4 = rules_mask_spec (pte_bits K) := by
        simp [level_mask, pg_level_four]
      rw [h, hm] at hprot
      simp only [level_flags, h, pg_level_four, decode_spec, level_rules_spec]
      exact dump_prot_eq_decode st value _ (pte_bits K) hprot
        (fun r hr => rule_mask_absorbed _ r hr)

/-- C12, witness: a leaf entry with `PTE_USER`, `PTE_RDONLY` and the two type
bits set; the type bits are outside the level mask. -/
theorem dump_prot_refines_decode_witness :
    level_flags sample sample_open = decode_spec sample 4 0xc3 :=
  dump_prot_refines_decode sample sample_open 4 0xc3 (by decide) rfl (by decide)

/-- C16 (level masks). After `ptdump_init` every `pg_level[i].mask`, `i` in
`0..4`, is the bitwise OR of the masks of the rules of `pg_level[i].bits`
(no rules for a NULL table); levels 0, 1 and 2 have no rule table, `num = 0`
and mask 0, so every value observed there has snapshot 0; and running the mask
computation of `ptdump_init` once more leaves the table as it is. -/
theorem level_masks (K : Consts) :
    (∀ i, i < 5 → ∃ pl, (pg_level K)[i]? = some pl ∧
      pl.mask = rules_mask_spec (pl.bits.getD [])) ∧
    (∀ i, i < 3 → (pg_level K)[i]? = some ⟨none, 0, 0⟩ ∧
      ∀ val, val &&& level_mask K i = 0) ∧
    ptdump_init (pg_level K) = pg_level K := by
  refine ⟨?_, ?_, ?_⟩
  · intro i hi
    rcases Nat.lt_or_ge i 3 with h3 | h3
    · exact ⟨_, pg_level_low K i h3, by simp [rules_mask_spec]⟩
    · rcases Nat.lt_or_ge i 4 with h4 | h4
      · have h : i = 3 := by omega
        subst h
        exact ⟨_, pg_level_three K, rfl⟩
      · have h : i = 4 := by omega
        subst h
        exact ⟨_, pg_level_four K, rfl⟩
  · intro i hi
    refine ⟨pg_level_low K i hi, fun val => ?_⟩
    simp [level_mask, pg_level_low K i hi]
  · have h3 := or_masks_eq (section_bits K) 0
    have h4 := or_masks_eq (pte_bits K) 0
    have h3a := or_masks_eq (section_bits K) (rules_mask_spec (section_bits K))
    have h4a := or_masks_eq (pte_bits K) (rules_mask_spec (pte_bits K))
    simp only [Nat.zero_or, Nat.or_self] at h3 h4 h3a h4a
    simp [pg_level, ptdump_init, pg_level_static, init_level, h3, h4, h3a, h4a]

/-! ## Claim C17: array accesses stay in bounds -/

theorem marker_name_some (K : Consts) (i : Nat) (mk : addr_marker) (hi : i ≤ 9)
    (h : (address_markers K)[i]? = some mk) : mk.name ≠ none := by
  interval_cases i <;> simp [address_markers] at h <;> subst h <;> simp

theorem header_mem_flush (K : Consts) (st : pg_state) (addr : Nat) (c d : Prop)
    [Decidable c] [Decidable d] (n m : Option String)
    (h : Line.header n ∈ st.seq ++ (if c then [range_line K st addr] else []) ++
      (if d then [Line.header m] else [])) :
    Line.header n ∈ st.seq ∨ (d ∧ n = m) := by
  rcases List.mem_append.mp h with h1 | h1
  · rcases List.mem_append.mp h1 with h2 | h2
    · exact Or.inl h2
    · exact absurd h2 (flush_part_no_header K st addr c n)
  · split at h1
    · rename_i hd
      simp only [List.mem_singleton, Line.header.injEq] at h1
      exact Or.inr ⟨hd, h1⟩
    · cases h1

/-- C17 (indexing stays in bounds). For every stream of observations with
levels in `0..4` and addresses below `2^64 - 1`, fed from the initial state of
`walk_pgd`, and for every prefix of it: the run goes through, that is, no read
of `pg_level[level]`, `pg_level[st->level]`, `st->marker` or `st->marker[1]`
leaves its table; afterwards the marker pointer is on one of the ten named
entries, never on the sentinel, `st->level` is inside `pg_level`, and every
header line printed names a marker of the table with a non-NULL name. -/
theorem indexing_in_bounds (K : Consts) (obs : List Obs) (n : Nat)
    (hobs : ∀ o ∈ obs, o.level < 5 ∧ o.addr < 2 ^ 64 - 1) :
    ∃ st1, feed K (walk_pgd_init K) (obs.take n) = some st1 ∧
      st1.marker ≤ 9 ∧ st1.level < 5 ∧
      (∃ next, (address_markers K)[st1.marker + 1]? = some next) ∧
      ∀ name, Line.header name ∈ st1.seq →
        (∃ mk ∈ address_markers K, mk.name = name) ∧ name ≠ none := by
  obtain ⟨st1, hfeed, hm, hlv, hnames⟩ := feed_induct K (walk_pgd_init K)
    (fun os => ∀ o ∈ os, o.level < 5 ∧ o.addr < 2 ^ 64 - 1)
    (fun _ st => st.marker ≤ 9 ∧ st.level < 5 ∧
      ∀ name, Line.header name ∈ st.seq →
        (∃ mk ∈ address_markers K, mk.name = name) ∧ name ≠ none)
    (fun os o h p hp => h p (List.mem_append_left _ hp))
    ⟨by simp [walk_pgd_init], by simp [walk_pgd_init], by simp [walk_pgd_init]⟩
    (by
      rintro os o st hg ⟨hm, hlv, hnames⟩
      obtain ⟨hl, ha⟩ := hg o (by simp)
      obtain ⟨cur, next, hcur, hnext, hcase⟩ :=
        note_page_cases K st o.addr o.level o.val hm hlv hl
      rcases hcase with ⟨-, h⟩ | ⟨-, -, h⟩ | ⟨-, -, -, -, -, h⟩ | ⟨-, -, -, h⟩
      · exact ⟨_, h, hm, hlv, hnames⟩
      · refine ⟨_, h, hm, hl, ?_⟩
        intro name hname
        simp only [List.mem_append, List.mem_singleton, Line.header.injEq] at hname
        rcases hname with h1 | h1
        · exact hnames name h1
        · subst h1
          exact ⟨⟨cur, List.mem_iff_getElem?.mpr ⟨_, hcur⟩, rfl⟩,
            marker_name_some K st.marker cur hm hcur⟩
      · exact ⟨_, h, hm, hlv, hnames⟩
      · have hstep := marker_step_le K st next o.addr hm hnext ha
        refine ⟨_, h, hstep, hl, ?_⟩
        intro name hname
        rcases header_mem_flush K st o.addr _ _ name next.name hname with h1 | ⟨hadv, h1⟩
        · exact hnames name h1
        · subst h1
          simp only [hadv, if_true] at hstep
          exact ⟨⟨next, List.mem_iff_getElem?.mpr ⟨_, hnext⟩, rfl⟩,
            marker_name_some K (st.marker + 1) next hstep hnext⟩)
    (obs.take n) (fun o ho => hobs o (List.mem_of_mem_take ho))
  exact ⟨st1, hfeed, hm, hlv, address_markers_get K (by omega), hnames⟩

/-- C17, witness: a walk with level changes that crosses `VMALLOC_END`. -/
theorem indexing_in_bounds_witness :
    ∃ st1, feed sample (walk_pgd_init sample)
        (List.take 3 [⟨0xffffff8000000000, 1, 0⟩, ⟨0xffffffbbffe00000, 3, 0x400⟩,
          ⟨0xffffffbc00000000, 4, 0xc0⟩, ⟨0xffffffbc00001000, 0, 0⟩]) = some st1 ∧
      st1.marker ≤ 9 ∧ st1.level < 5 ∧
      (∃ next, (address_markers sample)[st1.marker + 1]? = some next) ∧
      ∀ name, Line.header name ∈ st1.seq →
        (∃ mk ∈ address_markers sample, mk.name = name) ∧ name ≠ none :=
  indexing_in_bounds sample
    [⟨0xffffff8000000000, 1, 0⟩, ⟨0xffffffbbffe00000, 3, 0x400⟩,
      ⟨0xffffffbc00000000, 4, 0xc0⟩, ⟨0xffffffbc00001000, 0, 0⟩] 3 (by decide)

/-! ## Claim C18: what the flag column tells about the snapshot -/

theorem dump_prot_both_labels (st1 st2 : pg_state) (b : prot_bits) (bits : List prot_bits)
    (n : Nat) (s c : String) (hset : b.set = some s) (hclear : b.clear = some c) (hne : s ≠ c)
    (h : dump_prot st1 (b :: bits) (n + 1) = dump_prot st2 (b :: bits) (n + 1)) :
    (st1.current_prot &&& b.mask = b.val ↔ st2.current_prot &&& b.mask = b.val) ∧
      dump_prot st1 bits n = dump_prot st2 bits n := by
  simp only [dump_prot, hset, hclear] at h
  by_cases h1 : st1.current_prot &&& b.mask = b.val <;>
    by_cases h2 : st2.current_prot &&& b.mask = b.val <;>
    simp only [h1, h2, if_true, if_false, List.singleton_append, List.cons.injEq] at h
  · exact ⟨by simp [h1, h2], h.2⟩
  · exact absurd h.1 hne
  · exact absurd h.1.symm hne
  · exact ⟨by simp [h1, h2], h.2⟩

theorem mem_dump_prot_set_only (st : pg_state) (bits : List prot_bits)
    (hclear : ∀ r ∈ bits, r.clear = none) (s : String) :
    s ∈ dump_prot st bits bits.length ↔
      ∃ r ∈ bits, r.set = some s ∧ st.current_prot &&& r.mask = r.val := by
  induction bits with
  | nil => simp [dump_prot]
  | cons b bs ih =>
    have hb := hclear b (by simp)
    have ih1 := ih (fun r hr => hclear r (List.mem_cons_of_mem _ hr))
    simp only [List.length_cons, dump_prot, hb, List.mem_append, ih1, List.mem_cons,
      exists_eq_or_imp]
    by_cases hm : st.current_prot &&& b.mask = b.val
    · simp only [hm, if_true, and_true]
      cases hs : b.set with
      | none => simp
      | some t => simp [eq_comm]
    · simp [hm]

theorem dump_prot_set_only (st1 st2 : pg_state) (bits : List prot_bits)
    (hclear : ∀ r ∈ bits, r.clear = none) (hset : ∀ r ∈ bits, r.set ≠ none)
    (hnodup : (bits.map prot_bits.set).Nodup)
    (h : dump_prot st1 bits bits.length = dump_prot st2 bits bits.length) :
    ∀ r ∈ bits, (st1.current_prot &&& r.mask = r.val ↔ st2.current_prot &&& r.mask = r.val) := by
  have key : ∀ (sa sb : pg_state),
      dump_prot sa bits bits.length = dump_prot sb bits bits.length →
      ∀ r ∈ bits, sa.current_prot &&& r.mask = r.val → sb.current_prot &&& r.mask = r.val := by
    intro sa sb hab r hr hm
    obtain ⟨s, hs⟩ := Option.ne_none_iff_exists'.mp (hset r hr)
    have h1 : s ∈ dump_prot sa bits bits.length :=
      (mem_dump_prot_set_only sa bits hclear s).mpr ⟨r, hr, hs, hm⟩
    rw [hab] at h1
    obtain ⟨r2, hr2, hs2, hm2⟩ := (mem_dump_prot_set_only sb bits hclear s).mp h1
    have : r2 = r := List.inj_on_of_nodup_map hnodup hr2 hr (by rw [hs, hs2])
    rw [← this]; exact hm2
  intro r hr
  exact ⟨key st1 st2 h r hr, key st2 st1 h.symm r hr⟩

/-- C18, as amended (the flag column identifies the rules that match). For the
two levels with a rule table (3 with `section_bits`, 4 with `pte_bits`) and any
two states at that level: if `dump_prot` prints the same labels for both
snapshots, then the snapshots match the same rules of the level, that is
`(p & mask) == val` holds for `p` exactly when it holds for `q`, rule by rule. -/
theorem flags_identify_matches (K : Consts) (st1 st2 : pg_state) (level : Nat)
    (hlevel : level = 3 ∨ level = 4) (h1 : st1.level = level) (h2 : st2.level = level)
    (hsame : level_flags K st1 = level_flags K st2) :
    ∀ r ∈ level_rules_spec K level,
      (st1.current_prot &&& r.mask = r.val ↔ st2.current_prot &&& r.mask = r.val) := by
  rcases hlevel with hl | hl
  · subst hl
    simp only [level_flags, h1, h2, pg_level_three] at hsame
    simp only [level_rules_spec]
    unfold section_bits at hsame ⊢
    simp only [List.length_cons, List.length_nil, Nat.zero_add, Nat.reduceAdd] at hsame
    obtain ⟨m1, hsame⟩ := dump_prot_both_labels st1 st2 _ _ _ "SHD" "   " rfl rfl (by decide) hsame
    obtain ⟨m2, hsame⟩ := dump_prot_both_labels st1 st2 _ _ _ "AF" "   " rfl rfl (by decide) hsame
    obtain ⟨m3, hsame⟩ := dump_prot_both_labels st1 st2 _ _ _ "AF" "   " rfl rfl (by decide) hsame
    obtain ⟨m4, hsame⟩ := dump_prot_both_labels st1 st2 _ _ _ "PNX" "x " rfl rfl (by decide) hsame
    obtain ⟨m5, -⟩ := dump_prot_both_labels st1 st2 _ _ _ "UNX" "x " rfl rfl (by decide) hsame
    intro r hr
    simp only [List.mem_cons, List.mem_singleton, List.not_mem_nil, or_false] at hr
    rcases hr with rfl | rfl | rfl | rfl | rfl
    · exact m1
    · exact m2
    · exact m3
    · exact m4
    · exact m5
  · subst hl
    simp only [level_flags, h1, h2, pg_level_four] at hsame
    simp only [level_rules_spec]
    unfold pte_bits at hsame ⊢
    simp only [List.length_cons, List.length_nil, Nat.zero_add, Nat.reduceAdd] at hsame
    obtain ⟨m1, hsame⟩ := dump_prot_both_labels st1 st2 _ _ _ "USR" "   " rfl rfl (by decide) hsame
    obtain ⟨m2, hsame⟩ := dump_prot_both_labels st1 st2 _ _ _ "ro" "RW" rfl rfl (by decide) hsame
    obtain ⟨m3, hsame⟩ :=
      dump_prot_both_labels st1 st2 _ _ _ "OSHD" "    " rfl rfl (by decide) hsame
    obtain ⟨m4, hsame⟩ :=
      dump_prot_both_labels st1 st2 _ _ _ "ISHD" "    " rfl rfl (by decide) hsame
    have htail := dump_prot_set_only st1 st2
      [⟨K.PTE_AF, K.PTE_AF, some "AF", none⟩, ⟨K.PTE_NG, K.PTE_NG, some "nG", none⟩,
        ⟨K.PTE_CONT, K.PTE_CONT, some "CONT", none⟩, ⟨K.PTE_PXN, K.PTE_PXN, some "PXN", none⟩,
        ⟨K.PTE_UXN, K.PTE_UXN, some "UXN", none⟩]
      (by simp) (by simp) (by simp) hsame
    intro r hr
    simp only [List.mem_cons] at hr
    rcases hr with rfl | rfl | rfl | rfl | hr
    · exact m1
    · exact m2
    · exact m3
    · exact m4
    · exact htail r (by simpa using hr)

/-- C18, witness of the amended claim: two leaf snapshots with the same flag
column. -/
theorem flags_identify_matches_witness :
    level_flags sample sample_user = level_flags sample sample_user_sh2 ∧
    ∀ r ∈ level_rules_spec sample 4,
      (sample_user.current_prot &&& r.mask = r.val ↔
        sample_user_sh2.current_prot &&& r.mask = r.val) :=
  ⟨by decide,
    flags_identify_matches sample sample_user sample_user_sh2 4 (Or.inr rfl) rfl rfl
      (by decide)⟩

/-- C18, counterexample to the claim as stated: the leaf snapshots `0x40` and
`0x240` are both inside the level mask and differ in the `PTE_SHARED` field
(0 against `2 << 8`), which matches neither the `OSHD` value `1 << 8` nor the
`ISHD` value `3 << 8`; `dump_prot` prints the same labels for both, and the two
adjacent ranges that `note_page` splits for this difference carry identical
flag columns. -/
theorem flags_do_not_identify_snapshot :
    0x40 &&& level_mask sample 4 = 0x40 ∧
    0x240 &&& level_mask sample 4 = 0x240 ∧
    level_flags sample sample_user = level_flags sample sample_user_sh2 ∧
    sample_user.current_prot ≠ sample_user_sh2.current_prot ∧
    ∃ st1, feed sample (walk_pgd_init sample)
        [⟨0xffffff8000000000, 4, 0x40⟩, ⟨0xffffff8000001000, 4, 0x240⟩,
          ⟨0xffffff8000002000, 4, 0⟩] = some st1 ∧
      st1.seq = [Line.header (some "vmalloc() Area"),
        Line.range 0xffffff8000000000 0xffffff8000001000 4 'K' ["USR", "RW", "    ", "    "],
        Line.range 0xffffff8000001000 0xffffff8000002000 4 'K' ["USR", "RW", "    ", "    "]] :=
  ⟨by decide, by decide, by decide, by decide, _, rfl, rfl⟩

/-! ## Claim C14: unmapped runs -/

theorem regions_visited_from_prefix (K : Consts) (n : Nat) (os : List Obs) (o : Obs)
    (hinc : (List.map Obs.addr (os ++ [o])).Pairwise (fun x y => x < y))
    (h : regions_visited_from K n (os ++ [o])) : regions_visited_from K n os := by
  intro q hq y hy hle
  obtain ⟨x, hx, h1, h2⟩ := h q hq y (List.mem_append_left _ hy) hle
  rcases List.mem_append.mp hx with hx1 | hx1
  · exact ⟨x, hx1, h1, h2⟩
  · simp only [List.mem_singleton] at hx1
    subst hx1
    have := (increasing_snoc os x hinc).2 y hy
    omega

theorem marker_headers_self (K : Consts) (i : Nat) : marker_headers K i i = [] := by
  simp [marker_headers]

theorem marker_headers_succ (K : Consts) (i j : Nat) (next : addr_marker) (hij : i ≤ j)
    (hnext : (address_markers K)[j + 1]? = some next) :
    marker_headers K i (j + 1) = marker_headers K i j ++ [Line.header next.name] := by
  have h1 : j + 1 - i = (j - i) + 1 := by omega
  have h2 : ((address_markers K).drop (i + 1))[j - i]? = some next := by
    rw [List.getElem?_drop, ← hnext]
    congr 1
    omega
  simp [marker_headers, h1, List.take_succ, h2]

/-- An unmapped run prints headers only: from an open range with snapshot 0,
observations at levels `1..4` with masked snapshot 0 leave the snapshot at 0,
and the output grows by the headers of the markers the pointer moves over. -/
theorem unmapped_run_lines (K : Consts) (st : pg_state) (obs : List Obs)
    (hm : st.marker ≤ 9) (hopen : 1 ≤ st.level ∧ st.level ≤ 4) (hzero : st.current_prot = 0)
    (hobs : ∀ o ∈ obs, (1 ≤ o.level ∧ o.level ≤ 4) ∧ o.addr < 2 ^ 64 - 1 ∧
      o.val &&& level_mask K o.level = 0) :
    ∃ st1, feed K st obs = some st1 ∧ st.marker ≤ st1.marker ∧
      st1.seq = st.seq ++ marker_headers K st.marker st1.marker := by
  obtain ⟨st1, hfeed, -, hmono, -, -, -, hseq⟩ := feed_induct K st
    (fun os => ∀ o ∈ os, (1 ≤ o.level ∧ o.level ≤ 4) ∧ o.addr < 2 ^ 64 - 1 ∧
        o.val &&& level_mask K o.level = 0)
    (fun _ s => s.marker ≤ 9 ∧ st.marker ≤ s.marker ∧ 1 ≤ s.level ∧ s.level ≤ 4 ∧
      s.current_prot = 0 ∧
      s.seq = st.seq ++ marker_headers K st.marker s.marker)
    (fun os o h p hp => h p (List.mem_append_left _ hp))
    ⟨hm, le_refl _, hopen.1, hopen.2, hzero, by simp [marker_headers_self]⟩
    (by
      rintro os o s hg ⟨hm1, hmono, hl1, hl4, hz, hseq⟩
      obtain ⟨⟨ho1, ho4⟩, ha, hmask⟩ := hg o (by simp)
      obtain ⟨cur, next, hcur, hnext, hcase⟩ :=
        note_page_cases K s o.addr o.level o.val hm1 (by omega) (by omega)
      rcases hcase with ⟨-, h⟩ | ⟨-, hcl, -⟩ | ⟨-, -, -, -, -, h⟩ | ⟨-, -, -, h⟩
      · exact ⟨_, h, hm1, hmono, hl1, hl4, hz, hseq⟩
      · omega
      · exact ⟨_, h, hm1, hmono, hl1, hl4, hz, hseq⟩
      · simp only [hz, ne_eq, not_true_eq_false, if_false, List.append_nil, hmask] at h
        by_cases hadv : next.start_address ≤ o.addr
        · simp only [hadv, if_true] at h
          have hm2 : s.marker + 1 ≤ 9 := by
            have := marker_step_le K s next o.addr hm1 hnext ha
            simpa [hadv] using this
          refine ⟨_, h, hm2, by simp only; omega, ho1, ho4, rfl, ?_⟩
          simp only
          rw [marker_headers_succ K st.marker s.marker next hmono hnext, hseq,
            List.append_assoc]
        · simp only [hadv, if_false, List.append_nil] at h
          exact ⟨_, h, hm1, hmono, ho1, ho4, rfl, hseq⟩)
    obs hobs
  exact ⟨st1, hfeed, hmono, hseq⟩

theorem range_bounds_marker_headers (K : Consts) (i j : Nat) :
    range_bounds (marker_headers K i j) = [] := by
  unfold marker_headers
  induction (List.take (j - i) (List.drop (i + 1) (address_markers K))) with
  | nil => rfl
  | cons a as ih => simpa [range_bounds] using ih

theorem regions_visited_from_left (K : Consts) (n : Nat) (xs rest : List Obs)
    (hinc : (List.map Obs.addr (xs ++ rest)).Pairwise (fun x y => x < y))
    (h : regions_visited_from K n (xs ++ rest)) : regions_visited_from K n xs := by
  intro q hq y hy hle
  obtain ⟨x, hx, h1, h2⟩ := h q hq y (List.mem_append_left _ hy) hle
  rcases List.mem_append.mp hx with hx1 | hx1
  · exact ⟨x, hx1, h1, h2⟩
  · rw [List.map_append, List.pairwise_append] at hinc
    have := hinc.2.2 y.addr (List.mem_map_of_mem _ hy) x.addr (List.mem_map_of_mem _ hx1)
    omega

/-- Marker tracking along an unmapped run in which no observation crosses two
marker boundaries at once: after the last observation the current marker is the
last marker at or below the observed address. -/
theorem unmapped_run_tracked (K : Consts) (st : pg_state) (obs : List Obs) (cur0 : addr_marker)
    (hsorted : (marker_starts K).Pairwise (fun x y => x < y))
    (hm : st.marker ≤ 9) (hopen : 1 ≤ st.level ∧ st.level ≤ 4) (hzero : st.current_prot = 0)
    (hcur0 : (address_markers K)[st.marker]? = some cur0)
    (hne : obs ≠ [])
    (hobs : ∀ o ∈ obs, (1 ≤ o.level ∧ o.level ≤ 4) ∧ o.addr < 2 ^ 64 - 1 ∧
      K.USER_PGTABLES_CEILING ≤ o.addr ∧ cur0.start_address ≤ o.addr ∧
      o.val &&& level_mask K o.level = 0)
    (hinc : (obs.map Obs.addr).Pairwise (fun x y => x < y))
    (hcover : regions_visited_from K (st.marker + 1) obs) :
    ∃ st1 o cur next, feed K st obs = some st1 ∧ obs.getLast? = some o ∧
      range_bounds st1.seq = range_bounds st.seq ∧
      (address_markers K)[st1.marker]? = some cur ∧
      (address_markers K)[st1.marker + 1]? = some next ∧
      cur.start_address ≤ o.addr ∧ o.addr < next.start_address ∧
      (∀ m ∈ marker_starts K, m ≤ o.addr → m ≤ cur.start_address) ∧
      st.marker ≤ st1.marker ∧
      st1.seq = st.seq ++ marker_headers K st.marker st1.marker := by
  obtain ⟨st1, hfeed, hm1, hmono, -, -, -, hseq, hlo, hhi⟩ := feed_induct K st
    (fun os => (∀ o ∈ os, (1 ≤ o.level ∧ o.level ≤ 4) ∧ o.addr < 2 ^ 64 - 1 ∧
        K.USER_PGTABLES_CEILING ≤ o.addr ∧ cur0.start_address ≤ o.addr ∧
        o.val &&& level_mask K o.level = 0) ∧
      (os.map Obs.addr).Pairwise (fun x y => x < y) ∧
      regions_visited_from K (st.marker + 1) os)
    (fun os s => s.marker ≤ 9 ∧ st.marker ≤ s.marker ∧ 1 ≤ s.level ∧ s.level ≤ 4 ∧
      s.current_prot = 0 ∧
      s.seq = st.seq ++ marker_headers K st.marker s.marker ∧
      (∀ cur, (address_markers K)[s.marker]? = some cur →
        s.marker = st.marker ∨ ∃ p ∈ os, cur.start_address ≤ p.addr) ∧
      (∀ next, (address_markers K)[s.marker + 1]? = some next →
        ∀ p ∈ os, p.addr < next.start_address))
    (fun os o h => ⟨fun p hp => h.1 p (List.mem_append_left _ hp),
      (increasing_snoc os o h.2.1).1, regions_visited_from_prefix K _ os o h.2.1 h.2.2⟩)
    ⟨hm, le_refl _, hopen.1, hopen.2, hzero, by simp [marker_headers_self],
      fun _ _ => Or.inl rfl, by simp⟩
    (by
      rintro os o s ⟨hg, hinc1, hcov⟩ ⟨hm1, hmono, hl1, hl4, hz, hseq, hlo, hhi⟩
      obtain ⟨⟨ho1, ho4⟩, ha, hc, -, hmask⟩ := hg o (by simp)
      have hprev : ∀ p ∈ os, p.addr < o.addr := (increasing_snoc os o hinc1).2
      obtain ⟨cur, next, hcur, hnext, hcase⟩ :=
        note_page_cases K s o.addr o.level o.val hm1 (by omega) (by omega)
      rcases hcase with ⟨hlow, -⟩ | ⟨-, hcl, -⟩ | ⟨-, -, -, -, hb, h⟩ | ⟨-, -, -, h⟩
      · omega
      · omega
      · refine ⟨_, h, hm1, hmono, hl1, hl4, hz, hseq, ?_, ?_⟩
        · intro c hc1
          rcases hlo c hc1 with h1 | ⟨p, hp, hle⟩
          · exact Or.inl h1
          · exact Or.inr ⟨p, List.mem_append_left _ hp, hle⟩
        · intro nx hnx p hp
          rw [hnext] at hnx; cases hnx
          rcases List.mem_append.mp hp with hp1 | hp1
          · exact hhi next hnext p hp1
          · simp only [List.mem_singleton] at hp1
            subst hp1; exact hb
      · simp only [hz, ne_eq, not_true_eq_false, if_false, List.append_nil, hmask] at h
        by_cases hadv : next.start_address ≤ o.addr
        · simp only [hadv, if_true] at h
          have hm2 : s.marker + 1 ≤ 9 := by
            have := marker_step_le K s next o.addr hm1 hnext ha
            simpa [hadv] using this
          obtain ⟨nn, hnn⟩ := address_markers_get K (show s.marker + 1 + 1 < 11 by omega)
          have hon : o.addr < nn.start_address := by
            by_contra hcon
            have e1 : st.marker + 1 + (s.marker - st.marker) = s.marker + 1 := by omega
            have e2 : st.marker + 1 + (s.marker - st.marker + 1) = s.marker + 1 + 1 := by omega
            have hq := mem_zip_tail ((marker_starts K).drop (st.marker + 1))
              (s.marker - st.marker) next.start_address nn.start_address
              (by rw [List.getElem?_drop, e1]; exact marker_starts_get K _ next hnext)
              (by rw [List.getElem?_drop, e2]; exact marker_starts_get K _ nn hnn)
            obtain ⟨x, hx, hx1, hx2⟩ := hcov _ hq o (by simp) (by simp only; omega)
            simp only at hx1 hx2
            rcases List.mem_append.mp hx with hx3 | hx3
            · have := hhi next hnext x hx3
              omega
            · simp only [List.mem_singleton] at hx3
              subst hx3; omega
          refine ⟨_, h, hm2, by simp only; omega, ho1, ho4, rfl, ?_, ?_, ?_⟩
          · simp only
            rw [marker_headers_succ K st.marker s.marker next hmono hnext, hseq,
              List.append_assoc]
          · intro c hc1
            simp only at hc1
            rw [hnext] at hc1; cases hc1
            exact Or.inr ⟨o, by simp, hadv⟩
          · intro nx hnx p hp
            simp only at hnx
            rw [hnn] at hnx; cases hnx
            rcases List.mem_append.mp hp with hp1 | hp1
            · have := hprev p hp1
              omega
            · simp only [List.mem_singleton] at hp1
              subst hp1; exact hon
        · simp only [hadv, if_false, List.append_nil] at h
          refine ⟨_, h, hm1, hmono, ho1, ho4, rfl, hseq, ?_, ?_⟩
          · intro c hc1
            rcases hlo c hc1 with h1 | ⟨p, hp, hle⟩
            · exact Or.inl h1
            · exact Or.inr ⟨p, List.mem_append_left _ hp, hle⟩
          · intro nx hnx p hp
            simp only at hnx
            rw [hnext] at hnx; cases hnx
            rcases List.mem_append.mp hp with hp1 | hp1
            · exact hhi next hnext p hp1
            · simp only [List.mem_singleton] at hp1
              subst hp1; omega)
    obs ⟨hobs, hinc, hcover⟩
  rcases List.eq_nil_or_concat obs with hnil | ⟨l, o, hlo1⟩
  · exact absurd hnil hne
  rw [List.concat_eq_append] at hlo1
  subst hlo1
  have hlast : ∀ p ∈ l ++ [o], p.addr ≤ o.addr := by
    intro p hp
    rcases List.mem_append.mp hp with hp1 | hp1
    · exact Nat.le_of_lt ((increasing_snoc l o hinc).2 p hp1)
    · simp only [List.mem_singleton] at hp1
      subst hp1; exact le_refl _
  obtain ⟨cur, hcur⟩ := address_markers_get K (show st1.marker < 11 by omega)
  obtain ⟨next, hnext⟩ := address_markers_get K (show st1.marker + 1 < 11 by omega)
  have hcurle : cur.start_address ≤ o.addr := by
    rcases hlo cur hcur with h1 | ⟨p, hp, hle⟩
    · rw [h1, hcur0] at hcur
      cases hcur
      exact (hobs o (by simp)).2.2.2.1
    · have := hlast p hp
      omega
  have hnextgt : o.addr < next.start_address := hhi next hnext o (by simp)
  refine ⟨st1, o, cur, next, hfeed, by simp, ?_, hcur, hnext, hcurle, hnextgt, ?_, hmono, hseq⟩
  · rw [hseq, range_bounds_append]
    have : range_bounds (marker_headers K st.marker st1.marker) = [] := by
      unfold marker_headers
      induction (List.take (st1.marker - st.marker) (List.drop (st.marker + 1)
        (address_markers K))) with
      | nil => rfl
      | cons a as ih => simpa [range_bounds] using ih
    rw [this, List.append_nil]
  · intro m hmem hmle
    by_contra hgt
    have := marker_gap K hsorted st1.marker cur next hcur hnext m hmem (by omega)
    omega

/-- C14, as amended (unmapped runs). Let a range with snapshot 0 be open
(`st.level` in `1..4`, marker pointer on a named entry) and let a run of
observations follow, of any length: levels `1..4`, masked snapshot 0, addresses
below `2^64 - 1`. Then the run goes through and prints no range line, and the
output grows by exactly the headers of the markers the pointer moves over, in
table order. If moreover the marker table is ascending, the addresses of the
run are strictly increasing, at or above the ceiling and the current marker's
start, and no observation crosses two marker boundaries at once
(`regions_visited_from`), then after each observation of the run the current
marker is the last marker whose start is at most that observation's address. -/
theorem unmapped_run (K : Consts) (st : pg_state) (obs : List Obs)
    (hm : st.marker ≤ 9) (hopen : 1 ≤ st.level ∧ st.level ≤ 4) (hzero : st.current_prot = 0)
    (hobs : ∀ o ∈ obs, (1 ≤ o.level ∧ o.level ≤ 4) ∧ o.addr < 2 ^ 64 - 1 ∧
      o.val &&& level_mask K o.level = 0) :
    ∃ st1, feed K st obs = some st1 ∧
      range_bounds st1.seq = range_bounds st.seq ∧
      st.marker ≤ st1.marker ∧
      st1.seq = st.seq ++ marker_headers K st.marker st1.marker ∧
      ∀ cur0, (marker_starts K).Pairwise (fun x y => x < y) →
        (address_markers K)[st.marker]? = some cur0 →
        (∀ p ∈ obs, K.USER_PGTABLES_CEILING ≤ p.addr ∧ cur0.start_address ≤ p.addr) →
        (obs.map Obs.addr).Pairwise (fun x y => x < y) →
        regions_visited_from K (st.marker + 1) obs →
        ∀ l o rest, obs = l ++ o :: rest →
          ∃ s cur next, feed K st (l ++ [o]) = some s ∧
            (address_markers K)[s.marker]? = some cur ∧
            (address_markers K)[s.marker + 1]? = some next ∧
            cur.start_address ≤ o.addr ∧ o.addr < next.start_address ∧
            ∀ m ∈ marker_starts K, m ≤ o.addr → m ≤ cur.start_address := by
  obtain ⟨st1, hfeed, hmono, hseq⟩ := unmapped_run_lines K st obs hm hopen hzero hobs
  refine ⟨st1, hfeed, ?_, hmono, hseq, ?_⟩
  · rw [hseq, range_bounds_append, range_bounds_marker_headers, List.append_nil]
  · intro cur0 hsorted hcur0 hlow hinc hcover l o rest hsplit
    have hsplit1 : obs = (l ++ [o]) ++ rest := by simp [hsplit]
    have hmem : ∀ p ∈ l ++ [o], p ∈ obs := by
      intro p hp
      rw [hsplit1]
      exact List.mem_append_left _ hp
    obtain ⟨s, o1, cur, next, hs, hlast, -, hcur, hnext, h1, h2, h3, -, -⟩ :=
      unmapped_run_tracked K st (l ++ [o]) cur0 hsorted hm hopen hzero hcur0 (by simp)
        (fun p hp => ⟨(hobs p (hmem p hp)).1, (hobs p (hmem p hp)).2.1,
          (hlow p (hmem p hp)).1, (hlow p (hmem p hp)).2, (hobs p (hmem p hp)).2.2⟩)
        (by
          rw [hsplit1, List.map_append, List.pairwise_append] at hinc
          exact hinc.1)
        (regions_visited_from_left K _ (l ++ [o]) rest (by rw [← hsplit1]; exact hinc)
          (by rw [← hsplit1]; exact hcover))
    have ho1 : o1 = o := by simpa using hlast.symm
    subst ho1
    exact ⟨s, cur, next, hs, hcur, hnext, h1, h2, h3⟩

/-- C14, witness of the amended claim: an unmapped run that moves over
`VMALLOC_END` and `VMEMMAP_START` one boundary at a time. -/
theorem unmapped_run_witness :
    ∃ st1, feed sample sample_unmapped
        [⟨0xffffff8040000000, 1, 0⟩, ⟨0xffffffbbffff0000, 4, 0⟩,
          ⟨0xffffffbc00000000, 1, 0⟩] = some st1 ∧
      range_bounds st1.seq = range_bounds sample_unmapped.seq ∧
      sample_unmapped.marker ≤ st1.marker ∧
      st1.seq = sample_unmapped.seq ++ marker_headers sample sample_unmapped.marker st1.marker ∧
      ∀ l o rest, ([⟨0xffffff8040000000, 1, 0⟩, ⟨0xffffffbbffff0000, 4, 0⟩,
          ⟨0xffffffbc00000000, 1, 0⟩] : List Obs) = l ++ o :: rest →
        ∃ s cur next, feed sample sample_unmapped (l ++ [o]) = some s ∧
          (address_markers sample)[s.marker]? = some cur ∧
          (address_markers sample)[s.marker + 1]? = some next ∧
          cur.start_address ≤ o.addr ∧ o.addr < next.start_address ∧
          ∀ m ∈ marker_starts sample, m ≤ o.addr → m ≤ cur.start_address :=
  (unmapped_run sample sample_unmapped
    [⟨0xffffff8040000000, 1, 0⟩, ⟨0xffffffbbffff0000, 4, 0⟩, ⟨0xffffffbc00000000, 1, 0⟩]
    (by decide) (by decide) rfl (by decide)).imp
    (fun _ h => ⟨h.1, h.2.1, h.2.2.1, h.2.2.2.1,
      h.2.2.2.2 ⟨0xffffff8000000000, some "vmalloc() Area"⟩ (by decide) rfl (by decide)
        (by decide) (by unfold regions_visited_from; decide)⟩)

/-- C14, counterexample to the claim as stated: two consecutive unmapped
top-level entries, 1GB apart. The second observation, at `0xffffffbc00000000`,
passes `VMALLOC_END` and reaches `VMEMMAP_START` in one step; the marker moves
to `vmalloc() End` only, although `vmemmap Area(8GB)` is the last marker at or
below the observed address, and the header of that marker is not printed. -/
theorem unmapped_run_lags :
    (List.map Obs.addr [⟨0xffffffbbc0000000, 1, 0⟩, ⟨0xffffffbc00000000, 1, 0⟩]).Pairwise
      (fun x y => x < y) ∧
    sample_unmapped.current_prot = 0 ∧
    (∀ o ∈ ([⟨0xffffffbbc0000000, 1, 0⟩, ⟨0xffffffbc00000000, 1, 0⟩] : List Obs),
      o.val &&& level_mask sample o.level = 0) ∧
    ∃ st1, feed sample sample_unmapped
        [⟨0xffffffbbc0000000, 1, 0⟩, ⟨0xffffffbc00000000, 1, 0⟩] = some st1 ∧
      st1.marker = 1 ∧
      (address_markers sample)[2]? = some ⟨0xffffffbc00000000, some "vmemmap Area(8GB)"⟩ ∧
      st1.seq = [Line.header (some "vmalloc() Area"), Line.header (some "vmalloc() End")] :=
  ⟨by decide, rfl, by decide, _, rfl, rfl, rfl, rfl⟩

/-! ## Claim C15: the worked example of the report format -/

theorem format_kib (n : Nat) (h : (n / 1024) % 1024 ≠ 0) : format n = (n / 1024, 'K') := by
  simp [format, shiftRight_10, units, unit_loop, and_1023, h]

theorem pte_flags_user_ro (K : Consts) (st : pg_state) (hlevel : st.level = 4)
    (husr : st.current_prot &&& K.PTE_USER = K.PTE_USER)
    (hro : st.current_prot &&& K.PTE_RDONLY = K.PTE_RDONLY)
    (hother : ∀ r ∈ (pte_bits K).drop 2, st.current_prot &&& r.mask ≠ r.val) :
    level_flags K st = ["USR", "ro", "    ", "    "] := by
  simp only [pte_bits, List.drop_succ_cons, List.drop_zero, List.mem_cons, List.mem_singleton,
    List.not_mem_nil, or_false, forall_eq_or_imp, forall_eq] at hother
  obtain ⟨h3, h4, h5, h6, h7, h8, h9⟩ := hother
  have h3a : st.current_prot &&& K.PTE_SHARED ≠ 256 := h3
  have h4a : st.current_prot &&& K.PTE_SHARED ≠ 768 := h4
  simp [level_flags, hlevel, pg_level_four, pte_bits, dump_prot, husr, hro, h3a, h4a, h5, h6,
    h7, h8, h9]

/-- C15, as amended (worked example). Let four leaf observations at `A`,
`A + P`, `A + 2P`, `A + 3P` all have the snapshot `p`, non-zero, for which the
`PTE_USER` and `PTE_RDONLY` rules match and no other rule of `pte_bits` does;
let the range be opened at `A` (`st1` is the state after the observation at
`A`), let the marker that follows the current one of `st1`
(`st->marker[1]`) start above `A + 3P`, and let a differing observation at
`A + 4P` close the range, with `A + 4P < 2^64` and `4P / 1024` not a multiple of
1024. Then the calls after the first print exactly one range line, followed by
the header of the next marker when that marker starts at or below `A + 4P`, and
the text of the range line is `0x<A>-0x<A+4P>`, three blanks, `4P/1024`
right-justified to width 9, `K USR ro`, then the two blank clear labels of the
`PTE_SHARED` rules (ten blanks in all) and the newline. -/
theorem worked_example (K : Consts) (st0 st1 : pg_state) (A P p : Nat) (v1 v2 v3 v4 : Nat)
    (lb vb : Nat) (next : addr_marker)
    (hfirst : note_page K st0 A 4 v1 = some st1)
    (hceil : K.USER_PGTABLES_CEILING ≤ A)
    (hopened : st1.start_address = A)
    (hP : 0 < P) (hfit : A + 4 * P < 2 ^ 64) (hunit : (4 * P / 1024) % 1024 ≠ 0)
    (hv : v1 &&& level_mask K 4 = p ∧ v2 &&& level_mask K 4 = p ∧
      v3 &&& level_mask K 4 = p ∧ v4 &&& level_mask K 4 = p)
    (hp : p ≠ 0)
    (husr : p &&& K.PTE_USER = K.PTE_USER) (hro : p &&& K.PTE_RDONLY = K.PTE_RDONLY)
    (hother : ∀ r ∈ (pte_bits K).drop 2, p &&& r.mask ≠ r.val)
    (hnext : (address_markers K)[st1.marker + 1]? = some next)
    (hb : A + 3 * P < next.start_address)
    (hlb : lb < 5) (hdiff : vb &&& level_mask K lb ≠ p ∨ lb ≠ 4) :
    ∃ st2 line, feed K st1 [⟨A + P, 4, v2⟩, ⟨A + 2 * P, 4, v3⟩, ⟨A + 3 * P, 4, v4⟩,
        ⟨A + 4 * P, lb, vb⟩] = some st2 ∧
      st2.seq = st1.seq ++ [line] ++
        (if next.start_address ≤ A + 4 * P then [Line.header next.name] else []) ∧
      render line = "0x" ++ fmt_016lx A ++ "-0x" ++ fmt_016lx (A + 4 * P) ++ "   " ++
        fmt_9lu (4 * P / 1024) ++ "K" ++ " USR ro          " ++ "\n" := by
  obtain ⟨-, hl1, hp1⟩ := note_page_level_prot K st0 st1 A 4 v1 hfirst hceil
  rw [hv.1] at hp1
  have hopen : st1.level ≠ 0 := by omega
  have hold : st1.level < 5 := by omega
  have hext : feed K st1 [⟨A + P, 4, v2⟩, ⟨A + 2 * P, 4, v3⟩, ⟨A + 3 * P, 4, v4⟩] = some st1 := by
    apply feed_extend K st1 next _ hopen hold hnext
    intro o ho
    simp only [List.mem_cons, List.mem_singleton, List.not_mem_nil, or_false] at ho
    rcases ho with rfl | rfl | rfl
    · exact ⟨by simp only; omega, by simp only; omega, by simp only; rw [hp1]; exact hv.2.1,
        by simp only; omega⟩
    · exact ⟨by simp only; omega, by simp only; omega, by simp only; rw [hp1]; exact hv.2.2.1,
        by simp only; omega⟩
    · exact ⟨by simp only; omega, by simp only; omega, by simp only; rw [hp1]; exact hv.2.2.2,
        by simp only; omega⟩
  have hfl := note_page_flush K st1 (A + 4 * P) lb vb next hlb (by omega) hopen hold hnext
    (by
      rcases hdiff with h | h
      · exact Or.inl (by rw [hp1]; exact h)
      · exact Or.inr (Or.inl (by omega)))
  have hfeed : feed K st1 [⟨A + P, 4, v2⟩, ⟨A + 2 * P, 4, v3⟩, ⟨A + 3 * P, 4, v4⟩,
      ⟨A + 4 * P, lb, vb⟩] = note_page K st1 (A + 4 * P) lb vb := by
    have := feed_snoc K st1 [⟨A + P, 4, v2⟩, ⟨A + 2 * P, 4, v3⟩, ⟨A + 3 * P, 4, v4⟩]
      ⟨A + 4 * P, lb, vb⟩
    simp only [List.cons_append, List.nil_append, hext] at this
    exact this
  have hne : st1.current_prot ≠ 0 := by rw [hp1]; exact hp
  have hflags : level_flags K st1 = ["USR", "ro", "    ", "    "] :=
    pte_flags_user_ro K st1 hl1 (by rw [hp1]; exact husr) (by rw [hp1]; exact hro)
      (by rw [hp1]; exact hother)
  have hdelta : (A + 4 * P + 2 ^ 64 - st1.start_address) % 2 ^ 64 = 4 * P := by
    rw [hopened]
    have : A + 4 * P + 2 ^ 64 - A = 4 * P + 2 ^ 64 := by omega
    rw [this, Nat.add_mod_right]
    exact Nat.mod_eq_of_lt (by omega)
  rw [hfeed, hfl]
  refine ⟨_, range_line K st1 (A + 4 * P), rfl, ?_, ?_⟩
  · simp [hne]
  · rw [hopened] at hdelta
    simp only [range_line, hopened, hdelta, format_kib (4 * P) hunit, hflags]
    rfl

/-- C15, witness of the amended claim: four 4K pages that end right at
`VMALLOC_END`, so that the closing observation also moves the marker. -/
theorem worked_example_witness :
    ∃ st2 line, feed sample
        { seq := [Line.header (some "vmalloc() Area")], marker := 0,
          start_address := 0xffffffbbfffec000, level := 4, current_prot := 0xc0 }
        [⟨0xffffffbbfffec000 + 4096, 4, 0xc3⟩, ⟨0xffffffbbfffec000 + 2 * 4096, 4, 0xc3⟩,
          ⟨0xffffffbbfffec000 + 3 * 4096, 4, 0xc3⟩,
          ⟨0xffffffbbfffec000 + 4 * 4096, 4, 0⟩] = some st2 ∧
      st2.seq = [Line.header (some "vmalloc() Area")] ++ [line] ++
        (if (0xffffffbbffff0000 : Nat) ≤ 0xffffffbbfffec000 + 4 * 4096 then
          [Line.header (some "vmalloc() End")] else []) ∧
      render line = "0x" ++ fmt_016lx 0xffffffbbfffec000 ++ "-0x" ++
        fmt_016lx (0xffffffbbfffec000 + 4 * 4096) ++ "   " ++
        fmt_9lu (4 * 4096 / 1024) ++ "K" ++ " USR ro          " ++ "\n" :=
  worked_example sample
    { seq := [Line.header (some "vmalloc() Area")], marker := 0,
      start_address := 0xffffffbbfffeb000, level := 4, current_prot := 0 }
    { seq := [Line.header (some "vmalloc() Area")], marker := 0,
      start_address := 0xffffffbbfffec000, level := 4, current_prot := 0xc0 }
    0xffffffbbfffec000 4096 0xc0
    0xc3 0xc3 0xc3 0xc3 4 0 ⟨0xffffffbbffff0000, some "vmalloc() End"⟩
    rfl (by decide) rfl (by decide) (by decide) (by decide) (by decide) (by decide)
    (by decide) (by decide) (by decide) rfl (by decide) (by decide) (by decide)

/-- C15, counterexample to the claim as stated, in two parts. First: for four
4K leaf pages at `VMALLOC_START` with snapshot `USR ro` the one line printed
does not end after `ro`: the two `PTE_SHARED` rules print their blank clear
labels, ten blanks in all, before the newline. Second: four such pages at
`0xffffffbffc001000`, right above `MODULES_VADDR`, with no marker start in
`[A, A + 4P)`, in a walk that has visited every marker region on its way:
the marker pointer moves one step per observation and, after the unaligned
markers `0xffffffbffbdfffff` and `0xffffffbffbe0ffff`, still has `MODULES_VADDR`
ahead of it when the range is opened, so the observation at `A + P` flushes and
the four pages are printed as two range lines. -/
theorem worked_example_fails :
    (∃ st2 line, feed sample (walk_pgd_init sample)
        [⟨0xffffff8000000000, 4, 0xc3⟩, ⟨0xffffff8000001000, 4, 0xc3⟩,
          ⟨0xffffff8000002000, 4, 0xc3⟩, ⟨0xffffff8000003000, 4, 0xc3⟩,
          ⟨0xffffff8000004000, 4, 0⟩] = some st2 ∧
      st2.seq = [Line.header (some "vmalloc() Area"), line] ∧
      render line =
        "0xffffff8000000000-0xffffff8000004000          16K USR ro" ++ "          " ++ "\n" ∧
      render line ≠ "0xffffff8000000000-0xffffff8000004000          16K USR ro" ++ "\n") ∧
    (∀ m ∈ marker_starts sample,
      ¬ (0xffffffbffc001000 ≤ m ∧ m < 0xffffffbffc001000 + 4 * 4096)) ∧
    ∃ st, feed sample (walk_pgd_init sample)
        [⟨0xffffff8000000000, 1, 0⟩, ⟨0xffffffbbffff0000, 4, 0⟩, ⟨0xffffffbc00000000, 1, 0⟩,
          ⟨0xffffffbe00000000, 1, 0⟩, ⟨0xffffffbffbc00000, 3, 0⟩, ⟨0xffffffbffbe00000, 3, 0⟩,
          ⟨0xffffffbffc000000, 4, 0⟩, ⟨0xffffffbffc001000, 4, 0xc3⟩] = some st ∧
      st.start_address = 0xffffffbffc001000 ∧ st.level = 4 ∧ st.current_prot = 0xc0 ∧
      range_bounds st.seq = [] ∧
      ∃ st2, feed sample st
          [⟨0xffffffbffc002000, 4, 0xc3⟩, ⟨0xffffffbffc003000, 4, 0xc3⟩,
            ⟨0xffffffbffc004000, 4, 0xc3⟩, ⟨0xffffffbffc005000, 4, 0⟩] = some st2 ∧
        range_bounds st2.seq =
          [(0xffffffbffc001000, 0xffffffbffc002000), (0xffffffbffc002000, 0xffffffbffc005000)] :=
  ⟨⟨_, _, rfl, rfl, by decide, by decide⟩, by decide, _, rfl, rfl, rfl, rfl, rfl, _, rfl, rfl⟩

/-! ## Claim C13: the walkers and the stream of observations -/

theorem for_loop_feed (K : Consts) (body : Nat → pg_state → Option pg_state)
    (f : Nat → List Obs) (hbody : ∀ i s, body i s = feed K s (f i)) (i n : Nat)
    (st : pg_state) :
    for_loop body i n st = feed K st ((List.range' i n).flatMap f) := by
  induction n generalizing i st with
  | zero => simp [for_loop, feed]
  | succ n ih =>
    simp only [for_loop, List.range'_succ, List.flatMap_cons, feed_append, hbody]
    cases feed K st (f i) with
    | none => rfl
    | some st1 => exact ih (i + 1) st1

theorem feed_single (K : Consts) (st : pg_state) (o : Obs) :
    feed K st [o] = note_page K st o.addr o.level o.val := by
  simp only [feed]
  cases note_page K st o.addr o.level o.val <;> rfl

theorem walk_pte_eq (K : Consts) (G : Pgtable) (st : pg_state) (pmd : pmd_t) (start : Nat) :
    walk_pte K G st pmd start = feed K st (walk_pte_obs G pmd start) := by
  have hmap : walk_pte_obs G pmd start =
      (List.range' 0 G.PTRS_PER_PTE).flatMap
        (fun i => [(⟨(start + i * G.PAGE_SIZE) % 2 ^ 64, 4, pmd.pte i⟩ : Obs)]) := by
    unfold walk_pte_obs
    rw [← List.range_eq_range']
    induction List.range G.PTRS_PER_PTE with
    | nil => rfl
    | cons a as ih => rw [List.flatMap_cons, List.map_cons, ih]; rfl
  rw [hmap]
  unfold walk_pte
  refine for_loop_feed K _ _ ?_ 0 _ st
  intro i s
  rw [feed_single]

theorem walk_pmd_eq (K : Consts) (G : Pgtable) (st : pg_state) (pud : pud_t) (start : Nat) :
    walk_pmd K G st pud start = feed K st (walk_pmd_obs G pud start) := by
  unfold walk_pmd walk_pmd_obs
  rw [List.range_eq_range']
  refine for_loop_feed K _ _ ?_ 0 _ st
  intro i s
  split
  · exact walk_pte_eq K G s _ _
  · rw [feed_single]

theorem walk_pud_eq (K : Consts) (G : Pgtable) (st : pg_state) (pgd : pgd_t) (start : Nat) :
    walk_pud K G st pgd start = feed K st (walk_pud_obs G pgd start) := by
  unfold walk_pud walk_pud_obs
  rw [List.range_eq_range']
  refine for_loop_feed K _ _ ?_ 0 _ st
  intro i s
  split
  · exact walk_pmd_eq K G s _ _
  · rw [feed_single]

theorem walk_pgd_eq (K : Consts) (G : Pgtable) (root : Nat → pgd_t) :
    walk_pgd K G root = feed K (walk_pgd_init K) (walk_pgd_obs K G root ++ [⟨0, 0, 0⟩]) := by
  have hloop : for_loop (fun i s =>
      if G.pgd_table (root i).val then
        walk_pud K G s (root i) ((K.VMALLOC_START + i * G.PGDIR_SIZE) % 2 ^ 64)
      else note_page K s ((K.VMALLOC_START + i * G.PGDIR_SIZE) % 2 ^ 64) 1 (root i).val)
      0 G.PTRS_PER_PGD (walk_pgd_init K) =
      feed K (walk_pgd_init K) (walk_pgd_obs K G root) := by
    unfold walk_pgd_obs
    rw [List.range_eq_range']
    refine for_loop_feed K _ _ ?_ 0 _ _
    intro i s
    split
    · exact walk_pud_eq K G s _ _
    · rw [feed_single]
  unfold walk_pgd
  rw [hloop, feed_snoc]

theorem mul_step (i j size : Nat) (h : i < j) : i * size + size ≤ j * size := by
  have h1 : (i + 1) * size ≤ j * size := Nat.mul_le_mul_right size h
  rw [Nat.succ_mul] at h1
  exact h1

theorem addr_no_wrap (start i n size : Nat) (hi : i < n) (hsize : 0 < size)
    (hfit : start + n * size ≤ 2 ^ 64) :
    (start + i * size) % 2 ^ 64 = start + i * size ∧
      start + i * size + size ≤ start + n * size := by
  have h1 := mul_step i n size hi
  exact ⟨Nat.mod_eq_of_lt (by omega), by omega⟩

theorem blocks_ascending (n size start : Nat) (f : Nat → List Obs)
    (h : ∀ i, i < n → (f i).Pairwise (fun a b => a.addr < b.addr) ∧
      ∀ o ∈ f i, start + i * size ≤ o.addr ∧ o.addr < start + i * size + size) :
    ((List.range n).flatMap f).Pairwise (fun a b => a.addr < b.addr) ∧
      ∀ o ∈ (List.range n).flatMap f, start ≤ o.addr ∧ o.addr < start + n * size := by
  constructor
  · rw [List.pairwise_flatMap]
    refine ⟨fun i hi => (h i (List.mem_range.mp hi)).1, ?_⟩
    refine List.Pairwise.imp_of_mem ?_ (List.pairwise_lt_range n)
    intro i j hi hj hij x hx y hy
    have h1 := (h i (List.mem_range.mp hi)).2 x hx
    have h2 := (h j (List.mem_range.mp hj)).2 y hy
    have h3 := mul_step i j size hij
    omega
  · intro o ho
    obtain ⟨i, hi, hoi⟩ := List.mem_flatMap.mp ho
    have hin := List.mem_range.mp hi
    have h1 := (h i hin).2 o hoi
    have h3 := mul_step i n size hin
    omega

/-- One level of the walk: entry `i` of a table either hands over to the walker
of the next level (`sub`) or is observed itself. -/
theorem level_obs_spec (n size start lvl : Nat) (cond : Nat → Bool) (val : Nat → Nat)
    (sub : Nat → Nat → List Obs) (Q : Nat → Obs → Prop)
    (hsize : 0 < size) (hfit : start + n * size ≤ 2 ^ 64)
    (hsub : ∀ i, i < n → cond i = true →
      (sub i (start + i * size)).Pairwise (fun a b => a.addr < b.addr) ∧
      (∀ o ∈ sub i (start + i * size),
        start + i * size ≤ o.addr ∧ o.addr < start + i * size + size) ∧
      ∀ o, o ∈ sub i (start + i * size) ↔ Q i o) :
    ((List.range n).flatMap (fun i =>
        if cond i then sub i ((start + i * size) % 2 ^ 64)
        else [⟨(start + i * size) % 2 ^ 64, lvl, val i⟩])).Pairwise
      (fun a b => a.addr < b.addr) ∧
    (∀ o ∈ (List.range n).flatMap (fun i =>
        if cond i then sub i ((start + i * size) % 2 ^ 64)
        else [⟨(start + i * size) % 2 ^ 64, lvl, val i⟩]),
      start ≤ o.addr ∧ o.addr < start + n * size) ∧
    ∀ o, o ∈ (List.range n).flatMap (fun i =>
        if cond i then sub i ((start + i * size) % 2 ^ 64)
        else [⟨(start + i * size) % 2 ^ 64, lvl, val i⟩]) ↔
      ∃ i, i < n ∧ ((cond i = false ∧ o = ⟨start + i * size, lvl, val i⟩) ∨
        (cond i = true ∧ Q i o)) := by
  have hblock := blocks_ascending n size start (fun i =>
      if cond i then sub i ((start + i * size) % 2 ^ 64)
      else [⟨(start + i * size) % 2 ^ 64, lvl, val i⟩])
    (by
      intro i hi
      obtain ⟨hmod, -⟩ := addr_no_wrap start i n size hi hsize hfit
      simp only [hmod]
      cases hc : cond i with
      | true =>
        simp only [if_true]
        exact ⟨(hsub i hi hc).1, (hsub i hi hc).2.1⟩
      | false =>
        simp only [Bool.false_eq_true, if_false]
        refine ⟨List.pairwise_singleton _ _, ?_⟩
        intro o ho
        simp only [List.mem_singleton] at ho
        subst ho
        show start + i * size ≤ start + i * size ∧ start + i * size < start + i * size + size
        omega)
  refine ⟨hblock.1, hblock.2, ?_⟩
  intro o
  rw [List.mem_flatMap]
  constructor
  · rintro ⟨i, hi, ho⟩
    have hin := List.mem_range.mp hi
    obtain ⟨hmod, -⟩ := addr_no_wrap start i n size hin hsize hfit
    simp only [hmod] at ho
    refine ⟨i, hin, ?_⟩
    cases hc : cond i with
    | true =>
      simp only [hc, if_true] at ho
      exact Or.inr ⟨rfl, ((hsub i hin hc).2.2 o).mp ho⟩
    | false =>
      simp only [hc, Bool.false_eq_true, if_false, List.mem_singleton] at ho
      exact Or.inl ⟨rfl, ho⟩
  · rintro ⟨i, hin, h⟩
    obtain ⟨hmod, -⟩ := addr_no_wrap start i n size hin hsize hfit
    refine ⟨i, List.mem_range.mpr hin, ?_⟩
    simp only [hmod]
    rcases h with ⟨hc, ho⟩ | ⟨hc, ho⟩
    · simp [hc, ho]
    · simp only [hc, if_true]
      exact ((hsub i hin hc).2.2 o).mpr ho

theorem walk_pte_obs_spec (G : Pgtable) (pmd : pmd_t) (start : Nat) (hpage : 0 < G.PAGE_SIZE)
    (hfit : start + G.PTRS_PER_PTE * G.PAGE_SIZE ≤ 2 ^ 64) :
    (walk_pte_obs G pmd start).Pairwise (fun a b => a.addr < b.addr) ∧
    (∀ o ∈ walk_pte_obs G pmd start,
      start ≤ o.addr ∧ o.addr < start + G.PTRS_PER_PTE * G.PAGE_SIZE) ∧
    ∀ o, o ∈ walk_pte_obs G pmd start ↔
      ∃ l, l < G.PTRS_PER_PTE ∧ o = ⟨start + l * G.PAGE_SIZE, 4, pmd.pte l⟩ := by
  have hmap : walk_pte_obs G pmd start =
      (List.range G.PTRS_PER_PTE).flatMap (fun i =>
        if (fun _ => false) i then (fun _ _ => ([] : List Obs)) i ((start + i * G.PAGE_SIZE) % 2 ^ 64)
        else [⟨(start + i * G.PAGE_SIZE) % 2 ^ 64, 4, pmd.pte i⟩]) := by
    unfold walk_pte_obs
    induction List.range G.PTRS_PER_PTE with
    | nil => rfl
    | cons a as ih => rw [List.flatMap_cons, List.map_cons, ih]; rfl
  have h := level_obs_spec G.PTRS_PER_PTE G.PAGE_SIZE start 4 (fun _ => false) pmd.pte
    (fun _ _ => []) (fun _ _ => False) hpage hfit (by intro i _ hc; cases hc)
  rw [← hmap] at h
  refine ⟨h.1, h.2.1, fun o => ?_⟩
  rw [h.2.2 o]
  simp

theorem walk_pmd_obs_spec (G : Pgtable) (pud : pud_t) (start : Nat) (hpage : 0 < G.PAGE_SIZE)
    (hpmd : 0 < G.PMD_SIZE) (hnest : G.PTRS_PER_PTE * G.PAGE_SIZE ≤ G.PMD_SIZE)
    (hfit : start + G.PTRS_PER_PMD * G.PMD_SIZE ≤ 2 ^ 64) :
    (walk_pmd_obs G pud start).Pairwise (fun a b => a.addr < b.addr) ∧
    (∀ o ∈ walk_pmd_obs G pud start,
      start ≤ o.addr ∧ o.addr < start + G.PTRS_PER_PMD * G.PMD_SIZE) ∧
    ∀ o, o ∈ walk_pmd_obs G pud start ↔
      ∃ k, k < G.PTRS_PER_PMD ∧
        ((G.pmd_table (pud.pmd k).val = false ∧
            o = ⟨start + k * G.PMD_SIZE, 3, (pud.pmd k).val⟩) ∨
         (G.pmd_table (pud.pmd k).val = true ∧ ∃ l, l < G.PTRS_PER_PTE ∧
            o = ⟨start + k * G.PMD_SIZE + l * G.PAGE_SIZE, 4, (pud.pmd k).pte l⟩)) := by
  unfold walk_pmd_obs
  refine level_obs_spec G.PTRS_PER_PMD G.PMD_SIZE start 3
    (fun i => G.pmd_table (pud.pmd i).val) (fun i => (pud.pmd i).val)
    (fun i a => walk_pte_obs G (pud.pmd i) a)
    (fun k o => ∃ l, l < G.PTRS_PER_PTE ∧
      o = ⟨start + k * G.PMD_SIZE + l * G.PAGE_SIZE, 4, (pud.pmd k).pte l⟩)
    hpmd hfit ?_
  intro i hi _
  obtain ⟨-, hend⟩ := addr_no_wrap start i _ _ hi hpmd hfit
  obtain ⟨h1, h2, h3⟩ := walk_pte_obs_spec G (pud.pmd i) (start + i * G.PMD_SIZE) hpage
    (by omega)
  refine ⟨h1, fun o ho => ?_, h3⟩
  have := h2 o ho
  omega

theorem walk_pud_obs_spec (G : Pgtable) (pgd : pgd_t) (start : Nat) (hpage : 0 < G.PAGE_SIZE)
    (hpmd : 0 < G.PMD_SIZE) (hpud : 0 < G.PUD_SIZE)
    (hnest1 : G.PTRS_PER_PTE * G.PAGE_SIZE ≤ G.PMD_SIZE)
    (hnest2 : G.PTRS_PER_PMD * G.PMD_SIZE ≤ G.PUD_SIZE)
    (hfit : start + G.PTRS_PER_PUD * G.PUD_SIZE ≤ 2 ^ 64) :
    (walk_pud_obs G pgd start).Pairwise (fun a b => a.addr < b.addr) ∧
    (∀ o ∈ walk_pud_obs G pgd start,
      start ≤ o.addr ∧ o.addr < start + G.PTRS_PER_PUD * G.PUD_SIZE) ∧
    ∀ o, o ∈ walk_pud_obs G pgd start ↔
      ∃ j, j < G.PTRS_PER_PUD ∧
        (((!G.pud_none (pgd.pud j).val) = false ∧
            o = ⟨start + j * G.PUD_SIZE, 2, (pgd.pud j).val⟩) ∨
         ((!G.pud_none (pgd.pud j).val) = true ∧ ∃ k, k < G.PTRS_PER_PMD ∧
            ((G.pmd_table ((pgd.pud j).pmd k).val = false ∧
                o = ⟨start + j * G.PUD_SIZE + k * G.PMD_SIZE, 3, ((pgd.pud j).pmd k).val⟩) ∨
             (G.pmd_table ((pgd.pud j).pmd k).val = true ∧ ∃ l, l < G.PTRS_PER_PTE ∧
                o = ⟨start + j * G.PUD_SIZE + k * G.PMD_SIZE + l * G.PAGE_SIZE, 4,
                  ((pgd.pud j).pmd k).pte l⟩)))) := by
  unfold walk_pud_obs
  refine level_obs_spec G.PTRS_PER_PUD G.PUD_SIZE start 2
    (fun i => !G.pud_none (pgd.pud i).val) (fun i => (pgd.pud i).val)
    (fun i a => walk_pmd_obs G (pgd.pud i) a)
    (fun j o => ∃ k, k < G.PTRS_PER_PMD ∧
      ((G.pmd_table ((pgd.pud j).pmd k).val = false ∧
          o = ⟨start + j * G.PUD_SIZE + k * G.PMD_SIZE, 3, ((pgd.pud j).pmd k).val⟩) ∨
       (G.pmd_table ((pgd.pud j).pmd k).val = true ∧ ∃ l, l < G.PTRS_PER_PTE ∧
          o = ⟨start + j * G.PUD_SIZE + k * G.PMD_SIZE + l * G.PAGE_SIZE, 4,
            ((pgd.pud j).pmd k).pte l⟩)))
    hpud hfit ?_
  intro i hi _
  obtain ⟨-, hend⟩ := addr_no_wrap start i _ _ hi hpud hfit
  obtain ⟨h1, h2, h3⟩ := walk_pmd_obs_spec G (pgd.pud i) (start + i * G.PUD_SIZE) hpage hpmd
    hnest1 (by omega)
  refine ⟨h1, fun o ho => ?_, h3⟩
  have := h2 o ho
  omega

/-- C13 (walker order and coverage). For a hierarchy whose geometry is
consistent (`geometry_ok`), `walk_pgd` is the run of `note_page` over the stream
`walk_pgd_obs`, followed by the single observation `(0, 0, 0)`. The stream
holds exactly the observations of the terminal entries (a level-4 entry, or a
level-1..3 entry that is not descended into), each at the address
`VMALLOC_START + i*PGDIR_SIZE + j*PUD_SIZE + k*PMD_SIZE + l*PAGE_SIZE` of its
index path, with its level and raw value; its addresses are strictly
increasing, so the entries come in ascending, depth-first order and no
observation occurs twice. -/
theorem walker_stream (K : Consts) (G : Pgtable) (root : Nat → pgd_t)
    (hgeo : geometry_ok K G) :
    walk_pgd K G root = feed K (walk_pgd_init K) (walk_pgd_obs K G root ++ [⟨0, 0, 0⟩]) ∧
    (∀ o, o ∈ walk_pgd_obs K G root ↔ terminal_obs K G root o) ∧
    ((walk_pgd_obs K G root).map Obs.addr).Pairwise (fun x y => x < y) ∧
    (walk_pgd_obs K G root).Nodup := by
  obtain ⟨hpage, hpmd, hpud, hpgd, hn1, hn2, hn3, hfit⟩ := hgeo
  have hspec := level_obs_spec G.PTRS_PER_PGD G.PGDIR_SIZE K.VMALLOC_START 1
    (fun i => G.pgd_table (root i).val) (fun i => (root i).val)
    (fun i a => walk_pud_obs G (root i) a)
    (fun i o => ∃ j, j < G.PTRS_PER_PUD ∧
      (((!G.pud_none ((root i).pud j).val) = false ∧
          o = ⟨K.VMALLOC_START + i * G.PGDIR_SIZE + j * G.PUD_SIZE, 2,
            ((root i).pud j).val⟩) ∨
       ((!G.pud_none ((root i).pud j).val) = true ∧ ∃ k, k < G.PTRS_PER_PMD ∧
          ((G.pmd_table (((root i).pud j).pmd k).val = false ∧
              o = ⟨K.VMALLOC_START + i * G.PGDIR_SIZE + j * G.PUD_SIZE + k * G.PMD_SIZE, 3,
                (((root i).pud j).pmd k).val⟩) ∨
           (G.pmd_table (((root i).pud j).pmd k).val = true ∧ ∃ l, l < G.PTRS_PER_PTE ∧
              o = ⟨K.VMALLOC_START + i * G.PGDIR_SIZE + j * G.PUD_SIZE + k * G.PMD_SIZE +
                    l * G.PAGE_SIZE, 4, (((root i).pud j).pmd k).pte l⟩)))))
    hpgd hfit
    (by
      intro i hi _
      obtain ⟨-, hend⟩ := addr_no_wrap K.VMALLOC_START i _ _ hi hpgd hfit
      obtain ⟨h1, h2, h3⟩ := walk_pud_obs_spec G (root i)
        (K.VMALLOC_START + i * G.PGDIR_SIZE) hpage hpmd hpud hn1 hn2 (by omega)
      refine ⟨h1, fun o ho => ?_, h3⟩
      have := h2 o ho
      omega)
  have hasc : (walk_pgd_obs K G root).Pairwise (fun a b => a.addr < b.addr) := hspec.1
  refine ⟨walk_pgd_eq K G root, ?_, List.pairwise_map.mpr hasc, ?_⟩
  · intro o
    have h := hspec.2.2 o
    unfold walk_pgd_obs
    rw [h]
    unfold terminal_obs
    simp only [Bool.not_eq_false', Bool.not_eq_true']
  · exact hasc.imp (fun {a b} hab heq => by rw [heq] at hab; exact Nat.lt_irrefl _ hab)

/-- C13, witness: the walk of a small hierarchy with two leaf pages, one block
and two empty entries. -/
theorem walker_stream_witness :
    walk_pgd sample sample_pgtable sample_root =
      feed sample (walk_pgd_init sample)
        (walk_pgd_obs sample sample_pgtable sample_root ++ [⟨0, 0, 0⟩]) ∧
    (∀ o, o ∈ walk_pgd_obs sample sample_pgtable sample_root ↔
      terminal_obs sample sample_pgtable sample_root o) ∧
    ((walk_pgd_obs sample sample_pgtable sample_root).map Obs.addr).Pairwise
      (fun x y => x < y) ∧
    (walk_pgd_obs sample sample_pgtable sample_root).Nodup :=
  walker_stream sample sample_pgtable sample_root (by unfold geometry_ok; decide)

end Dump
